import Mathlib

/-!  Verification of the mode-inference pipeline (inferModes.py).

The Python source is shallowly embedded as follows.

* Strings are `List Char`; Python `str.replace`, `str.split`, `re.search`
  are modelled by executable functions on character lists
  (`stripSpaces`, `splitChar`, `regexSearch`).
* The module-level regular expression
  `[a-zA-Z0-9]*\(([a-zA-Z0-9]*,( )*)*[a-zA-Z0-9]*\)\.` is embedded by
  `regexSearch`, which decides whether SOME substring of the input is of
  the form `alnum* ( inner ) .` where `inner` (decided by `innerMatch`)
  is a comma-separated sequence whose first segment is `alnum*` and whose
  later segments are `space* alnum*` -- exactly the language of the
  pattern, searched at every position like `re.search`.
* Integer rank codes are `Nat`.  Python builds dictionary keys and slot
  names with `str(code)`; since decimal printing is injective these are
  represented by the codes themselves (`Nat` keys, `Nat x Nat` slot
  names) rather than by their decimal strings.
* Python `set` objects of code strings are `Finset Nat`.
* Exceptions (`SyntaxFault` from the syntax check, `IndexError` from
  out-of-range list access, `StopIteration` from the `Types` counter)
  are modelled with `Except Fault`.
* `random.choice` in `PredicateLogicTypeInference` is modelled by an
  oracle `pick : Nat → Nat` giving the chosen index (reduced modulo the
  current pool size) at each iteration of the while loop; quantifying
  over `pick` covers every possible run of the randomized code.
* The while loop is written with explicit fuel (one unit per iteration,
  `n + 1` units supplied for `n` slots); exhaustion is a `Fault` that is
  proved unreachable.
-/

namespace InferModes

/-- Faults raised by the embedded code: failed syntax check, out-of-range
list indexing, `StopIteration` from the `Types` counter, and loop-fuel
exhaustion (an artifact of the embedding, proved unreachable). -/
inductive Fault where
  | syntaxFault : Fault
  | indexFault : Fault
  | stopIteration : Fault
  | fuel : Fault
deriving DecidableEq, Repr

instance exceptDecEq {ε α : Type} [DecidableEq ε] [DecidableEq α] :
    DecidableEq (Except ε α) := fun x y =>
  match x, y with
  | .error a, .error b =>
    if h : a = b then .isTrue (by rw [h]) else
      .isFalse (fun hc => h (by injection hc))
  | .ok a, .ok b =>
    if h : a = b then .isTrue (by rw [h]) else
      .isFalse (fun hc => h (by injection hc))
  | .error _, .ok _ => .isFalse (fun hc => Except.noConfusion hc)
  | .ok _, .error _ => .isFalse (fun hc => Except.noConfusion hc)

/-- Python `text.split(sep)` on character lists: split at every
occurrence of `sep`; the result is always nonempty and splitting the
empty string yields one empty segment. -/
def splitChar (sep : Char) : List Char → List (List Char)
  | [] => [[]]
  | c :: rest =>
    if c = sep then [] :: splitChar sep rest
    else (c :: (splitChar sep rest).headD []) :: (splitChar sep rest).tail

/-- All ways of writing a list as `pre ++ suf`, in order of growing
`pre`.  Used to model the unanchored scan of `re.search`. -/
def splitsOf (l : List Char) : List (List Char × List Char) :=
  match l with
  | [] => [([], [])]
  | c :: rest => ([], c :: rest) :: (splitsOf rest).map (fun p => (c :: p.1, p.2))

/-- The language of `([a-zA-Z0-9]*,( )*)*[a-zA-Z0-9]*`: split on commas,
the first segment must be alphanumeric and every later segment must be
spaces followed by an alphanumeric run. -/
def innerMatch (mid : List Char) : Bool :=
  match splitChar ',' mid with
  | [] => false
  | first :: rest =>
    first.all Char.isAlphanum &&
      rest.all (fun seg => (seg.dropWhile (· = ' ')).all Char.isAlphanum)

/-- Matcher for the closing part of the pattern: the suffix after the
chosen opening parenthesis must decompose as a middle part followed by a
closing parenthesis, a period and arbitrary text, with the middle part
in the inner language. -/
def closeMatch (pr : List Char × List Char) : Bool :=
  match pr.2 with
  | c :: d :: _ => c = ')' && d = '.' && innerMatch pr.1
  | _ => false

/-- Matcher for the whole pattern starting at one scan position: the
leading `[a-zA-Z0-9]*` can always match the empty string, so a match
exists at a position iff the suffix there starts with a literal
parenthesis followed by a `closeMatch` decomposition. -/
def openMatch (pr : List Char × List Char) : Bool :=
  match pr.2 with
  | c :: rest => c = '(' && (splitsOf rest).any closeMatch
  | [] => false

/-- Model of `_instance_re.search(example)` being successful: the
pattern matches at some position of the input. -/
def regexSearch (s : List Char) : Bool :=
  (splitsOf s).any openMatch

/-- Python `predicate_string.replace(' ', '')`. -/
def stripSpaces (s : List Char) : List Char :=
  s.filter (fun c => c ≠ ' ')

/-- Result of `InferenceUtils.parse`: the Python function returns the
list `[head, args] ++ extra` where `extra` collects the segments after a
second opening parenthesis (nonempty only for pathological inputs). -/
structure GAtom where
  head : List Char
  args : List (List Char)
  extra : List (List Char)
deriving DecidableEq, Repr

/-- `InferenceUtils.parse`: check the syntax with the regular expression
(raising `syntaxFault` like `inspect_instance_syntax`), then strip
spaces, keep the text before the first closing parenthesis, split it on
opening parentheses, and split the second segment on commas.  Accessing
`predicate_list[1]` when the split produced a single segment is the
`IndexError` case. -/
def parse (s : List Char) : Except Fault GAtom :=
  if regexSearch s then
    match splitChar '(' ((stripSpaces s).takeWhile (fun c => c ≠ ')')) with
    | p0 :: p1 :: rest => .ok ⟨p0, splitChar ',' p1, rest⟩
    | _ => .error .indexFault
  else .error .syntaxFault

/-- Modelled from the spec: the anchored ground-atom grammar
`identifier ( identifier (, identifier)* ) .` with whitespace around
commas tolerated and identifiers nonempty alphanumeric runs.  This is
the language the specification says an input must lie in; it is compared
against what `parse` (which only searches for a matching substring)
actually accepts. -/
def specIdent (l : List Char) : Bool :=
  !l.isEmpty && l.all Char.isAlphanum

/-- Modelled from the spec: trim spaces from both ends of a segment. -/
def specTrim (l : List Char) : List Char :=
  ((l.dropWhile (· = ' ')).reverse.dropWhile (· = ' ')).reverse

/-- Modelled from the spec: the argument region between the parentheses,
split on commas with each comma-separated token an identifier after
trimming surrounding whitespace. -/
def specInner (mid : List Char) : Bool :=
  (splitChar ',' mid).all (fun seg => specIdent (specTrim seg))

/-- Modelled from the spec: whole-string conformance to the ground-atom
grammar. -/
def specGrammarMatch (s : List Char) : Bool :=
  (splitsOf s).any (fun pr =>
    specIdent pr.1 &&
      match pr.2 with
      | '(' :: rest =>
        (splitsOf rest).any (fun pr2 => pr2.2 = [')', '.'] && specInner pr2.1)
      | _ => false)

/-- Does the input contain a closing parenthesis immediately followed by
a period?  A necessary condition for the regular expression to match. -/
def hasCloseDot : List Char → Bool
  | [] => false
  | [_] => false
  | c :: d :: rest => (c = ')' && d = '.') || hasCloseDot (d :: rest)

/-- Text of a well-formed ground atom with spaces inserted after the
commas: `sps` gives the number of spaces following each comma.  With
`sps = []` this is the space-free text `head(arg1,arg2,...).` used to
express the well-formed inputs of the specification grammar. -/
def joinArgsSp : List (List Char) → List Nat → List Char
  | [], _ => []
  | [a], _ => a
  | a :: b :: rest, sps =>
    a ++ ',' :: (List.replicate (sps.headD 0) ' ' ++ joinArgsSp (b :: rest) sps.tail)

/-- The text `head ( args-with-commas-and-spaces ) .` of a ground atom. -/
def atomTextSp (h : List Char) (args : List (List Char)) (sps : List Nat) : List Char :=
  h ++ '(' :: (joinArgsSp args sps ++ ')' :: '.' :: [])

/-- The space-free text `head(arg1,arg2,...).` of a ground atom. -/
def atomText (h : List Char) (args : List (List Char)) : List Char :=
  atomTextSp h args []

/-- A head or argument token: nonempty and purely alphanumeric. -/
abbrev tokenOk (l : List Char) : Prop :=
  l ≠ [] ∧ ∀ c ∈ l, c.isAlphanum = true

/-- The keys of a `collections.Counter` built from `l`, in first-occurrence
order (Python dictionaries iterate in insertion order); written with an
accumulator of already-seen keys so that it is structurally recursive. -/
def pyKeysAux [DecidableEq α] : List α → List α → List α
  | [], _ => []
  | x :: xs, seen =>
    if x ∈ seen then pyKeysAux xs seen else x :: pyKeysAux xs (x :: seen)

/-- Distinct elements of `l` in first-occurrence order. -/
def pyKeys [DecidableEq α] (l : List α) : List α :=
  pyKeysAux l []

/-- Python `sorted(cnt, key=cnt.get, reverse=True)` where `cnt = Counter(l)`:
the distinct elements of `l`, stably sorted by descending multiplicity
(`sorted` is stable, as is insertion sort). -/
def rankList [DecidableEq α] (l : List α) : List α :=
  List.insertionSort (fun a b => l.count b ≤ l.count a) (pyKeys l)

/-- Number of occurrences of `a` in `l` (`Counter(l)[a]`), counted with
the decidable-equality instance used throughout the embedding. -/
def countOf [DecidableEq α] (l : List α) (a : α) : Nat :=
  l.count a

/-- The rank dictionary of `InferenceUtils.sort_keys`: each key is mapped
to its index in the descending-frequency ordering. -/
def rankOf [DecidableEq α] (l : List α) (a : α) : Nat :=
  (rankList l).indexOf a

/-- A parsed ground predicate `[head, [arg, ...]]`. -/
abbrev PAtom := List Char × List (List Char)

/-- `InferenceUtils.sort_keys`: pool positives, negatives and facts;
count head symbols and, separately, every constant in any argument
position; return the two descending-frequency rank maps. -/
def sort_keys (pos neg fac : List PAtom) : (List Char → Nat) × (List Char → Nat) :=
  (fun h => rankOf ((pos ++ neg ++ fac).map Prod.fst) h,
   fun b => rankOf ((pos ++ neg ++ fac).flatMap Prod.snd) b)

/-- One pass of the inner update loop of `compress_to_sets`: union the
code of each argument into the set at the matching position.  When the
argument list is shorter than the set list the remaining sets are kept;
the (faulting) longer case is cut off by a guard in `compressStep`. -/
def updateSets (br : List Char → Nat) : List (List Char) → List (Finset Nat) → List (Finset Nat)
  | [], sets => sets
  | _ :: _, [] => []
  | a :: args, s :: sets => insert (br a) s :: updateSets br args sets

/-- The `set_dictionary`: an insertion-ordered association list from head
code to the per-position sets of observed constant codes. -/
abbrev SetDict := List (Nat × List (Finset Nat))

/-- Python `set_dictionary[key]` read access (first matching key). -/
def dictLookup (k : Nat) : SetDict → Option (List (Finset Nat))
  | [] => none
  | kv :: rest => if kv.1 = k then some kv.2 else dictLookup k rest

/-- Python `set_dictionary[key] = v` for a present key: replace the first
entry with that key, keeping dictionary order. -/
def dictUpdate (k : Nat) (v : List (Finset Nat)) : SetDict → SetDict
  | [] => []
  | kv :: rest => if kv.1 = k then (kv.1, v) :: rest else kv :: dictUpdate k v rest

/-- The body of the `for data in pos + neg + fac` loop of
`compress_to_sets`: for an unseen head code allocate `arity` empty sets,
then union each argument code into the set at its position; an argument
index beyond the established set list is the `IndexError` case. -/
def compressStep (hr br : List Char → Nat) (dict : SetDict) (data : PAtom) :
    Except Fault SetDict :=
  match dictLookup (hr data.1) dict with
  | none =>
    .ok (dict ++ [(hr data.1, updateSets br data.2 (List.replicate data.2.length ∅))])
  | some sets =>
    if data.2.length ≤ sets.length then
      .ok (dictUpdate (hr data.1) (updateSets br data.2 sets) dict)
    else .error .indexFault

/-- Fold `compressStep` over the pooled data, stopping at the first fault. -/
def compressList (hr br : List Char → Nat) : SetDict → List PAtom → Except Fault SetDict
  | dict, [] => .ok dict
  | dict, a :: rest =>
    match compressStep hr br dict a with
    | .ok d => compressList hr br d rest
    | .error e => .error e

/-- `compress_to_sets`: build the rank maps with `sort_keys`, then
accumulate the per-(head, position) sets of constant codes over the
pooled data. -/
def compress_to_sets (pos neg fac : List PAtom) : Except Fault SetDict :=
  compressList (sort_keys pos neg fac).1 (sort_keys pos neg fac).2 [] (pos ++ neg ++ fac)

/-- An entry of the `untyped` list of `PredicateLogicTypeInference`
before it receives a type: the slot name `str(key) + underscore + str(i)`
(represented by the pair `(key, i)`) and its constant-code set. -/
structure USlot where
  name : Nat × Nat
  oset : Finset Nat
deriving DecidableEq

/-- A slot after its type id has been assigned. -/
structure TSlot where
  name : Nat × Nat
  oset : Finset Nat
  tid : Nat
deriving DecidableEq

/-- The flattening loop at the top of `PredicateLogicTypeInference`: one
untyped slot per (key, position) of the set dictionary. -/
def buildUntyped (d : SetDict) : List USlot :=
  d.flatMap (fun kv => kv.2.enum.map (fun pr => ⟨(kv.1, pr.1), pr.2⟩))

/-- The `for unknownType in unknownTypes` loop: walk the snapshot, and
for every snapshot slot whose set intersects the anchor set, remove the
first equal slot from the live pool (`untyped.remove`) and append it,
typed with the anchor id, to the typed output. -/
def sweep (c : USlot) (tid : Nat) : List USlot → List USlot → List USlot × List TSlot
  | [], cur => (cur, [])
  | u :: rest, cur =>
    if (c.oset ∩ u.oset).Nonempty then
      let r := sweep c tid rest (cur.erase u)
      (r.1, ⟨u.name, u.oset, tid⟩ :: r.2)
    else sweep c tid rest cur

/-- The `while untyped` loop.  Each iteration picks the slot at the
oracle index, draws the next id from the `Types` counter (raising
`stopIteration` when `n` ids have been drawn), removes the anchor, and
sweeps the remaining pool once against the anchor.  Fuel decreases by
one per iteration. -/
def pltiLoop (pick : Nat → Nat) (n : Nat) :
    Nat → Nat → List USlot → Nat → List TSlot → Except Fault (List TSlot)
  | 0, _, _, _, _ => .error .fuel
  | _ + 1, _, [], _, typed => .ok typed
  | fuel + 1, round, u0 :: us, ctr, typed =>
    if ctr < n then
      let c := (u0 :: us).get ⟨pick round % (us.length + 1), Nat.mod_lt _ (Nat.succ_pos _)⟩
      let u1 := (u0 :: us).erase c
      let pr := sweep c ctr u1 u1
      pltiLoop pick n fuel (round + 1) pr.1 (ctr + 1) (typed ++ ⟨c.name, c.oset, ctr⟩ :: pr.2)
    else .error .stopIteration

/-- `PredicateLogicTypeInference`: flatten the set dictionary into
untyped slots, create the `Types` counter bounded by the slot count, and
run the clustering loop.  The `pick` oracle models `random.choice`. -/
def PredicateLogicTypeInference (pick : Nat → Nat) (d : SetDict) :
    Except Fault (List TSlot) :=
  pltiLoop pick (buildUntyped d).length ((buildUntyped d).length + 1) 0 (buildUntyped d) 0 []

/-- Verification predicate: constant code `c` is observed at argument
position `p` of some pooled atom whose head code is `k`. -/
def slotSpec (hr br : List Char → Nat) (S : List PAtom) (k p c : Nat) : Prop :=
  ∃ a ∈ S, hr a.1 = k ∧ p < a.2.length ∧ br (a.2.getD p []) = c

/-- Verification invariant for the `compress_to_sets` loop over the
processed prefix `done`: dictionary keys are exactly the head codes seen
so far, each entry length is the arity of the atoms with that code, and
every set holds exactly the observed constant codes. -/
def dictInv (hr br : List Char → Nat) (dict : SetDict) (done : List PAtom) : Prop :=
  (dict.map Prod.fst).Nodup ∧
  (∀ k : Nat, (dictLookup k dict).isSome = true ↔ ∃ x ∈ done, hr x.1 = k) ∧
  (∀ k sets, dictLookup k dict = some sets →
    (∀ a ∈ done, hr a.1 = k → sets.length = a.2.length) ∧
    (∀ p, p < sets.length → ∀ c : Nat, c ∈ sets.getD p ∅ ↔ slotSpec hr br done k p c))

/-- The first atom of `S` whose head code is `k`; its arity is the one
`compress_to_sets` establishes for key `k`. -/
def firstWithCode (hr : List Char → Nat) (S : List PAtom) (k : Nat) : Option PAtom :=
  S.find? (fun a => decide (hr a.1 = k))

/-- Verification invariant for the arity-fault analysis: an entry exists
for a key iff some processed atom has that head code, and its length is
the arity of the FIRST processed atom with that code. -/
def estInv (hr : List Char → Nat) (dict : SetDict) (done : List PAtom) : Prop :=
  (∀ k : Nat, (dictLookup k dict).isSome = true
      ↔ (firstWithCode hr done k).isSome = true) ∧
  (∀ k sets b, dictLookup k dict = some sets →
    firstWithCode hr done k = some b → sets.length = b.2.length)

/-! ### Helper lemmas: substring scan and string splitting -/

theorem mem_splitsOf (pre suf : List Char) : (pre, suf) ∈ splitsOf (pre ++ suf) := by
  induction pre with
  | nil =>
    cases suf with
    | nil => simp [splitsOf]
    | cons c rest => simp [splitsOf]
  | cons c pre ih =>
    simp only [List.cons_append, splitsOf]
    exact List.mem_cons.mpr (Or.inr (List.mem_map.mpr ⟨(pre, suf), ih, rfl⟩))

theorem splitsOf_eq (l : List Char) : ∀ pr ∈ splitsOf l, l = pr.1 ++ pr.2 := by
  induction l with
  | nil =>
    intro pr h
    simp only [splitsOf, List.mem_singleton] at h
    subst h
    rfl
  | cons c rest ih =>
    intro pr h
    simp only [splitsOf, List.mem_cons, List.mem_map] at h
    rcases h with h | ⟨q, hq, hpr⟩
    · subst h; rfl
    · subst hpr
      simp only [List.cons_append]
      exact congrArg (c :: ·) (ih q hq)

theorem regexSearch_decomp (pre mid post : List Char) (h : innerMatch mid = true) :
    regexSearch (pre ++ '(' :: (mid ++ ')' :: '.' :: post)) = true := by
  have h2 : (splitsOf (mid ++ ')' :: '.' :: post)).any closeMatch = true := by
    apply List.any_eq_true.mpr
    refine ⟨(mid, ')' :: '.' :: post), mem_splitsOf _ _, ?_⟩
    simp [closeMatch, h]
  apply List.any_eq_true.mpr
  refine ⟨(pre, '(' :: (mid ++ ')' :: '.' :: post)), mem_splitsOf _ _, ?_⟩
  simp [openMatch, h2]

theorem regexSearch_sound (s : List Char) (h : regexSearch s = true) :
    ∃ pre mid post, s = pre ++ '(' :: (mid ++ ')' :: '.' :: post) ∧ innerMatch mid = true := by
  rcases List.any_eq_true.mp h with ⟨pr, hmem, hopen⟩
  obtain ⟨pre, suf⟩ := pr
  have hs := splitsOf_eq s (pre, suf) hmem
  cases suf with
  | nil => simp [openMatch] at hopen
  | cons c rest =>
    simp only [openMatch, Bool.and_eq_true, decide_eq_true_eq] at hopen
    obtain ⟨hc, hany⟩ := hopen
    subst hc
    rcases List.any_eq_true.mp hany with ⟨pr2, hmem2, hclose⟩
    obtain ⟨mid, suf2⟩ := pr2
    have hr := splitsOf_eq rest (mid, suf2) hmem2
    cases suf2 with
    | nil => simp [closeMatch] at hclose
    | cons d suf3 =>
      cases suf3 with
      | nil => simp [closeMatch] at hclose
      | cons e post =>
        have hceq : closeMatch (mid, d :: e :: post) =
            (decide (d = ')') && decide (e = '.') && innerMatch mid) := rfl
        rw [hceq, Bool.and_eq_true, Bool.and_eq_true] at hclose
        obtain ⟨⟨hd, he⟩, hinner⟩ := hclose
        have hd' : d = ')' := of_decide_eq_true hd
        have he' : e = '.' := of_decide_eq_true he
        subst hd'; subst he'
        exact ⟨pre, mid, post, by rw [hs, hr], hinner⟩

theorem hasCloseDot_append (l r : List Char) :
    hasCloseDot (l ++ ')' :: '.' :: r) = true := by
  induction l with
  | nil => simp [hasCloseDot]
  | cons c cl ih =>
    cases cl with
    | nil => simp [hasCloseDot]
    | cons d dl =>
      simp only [List.cons_append] at ih ⊢
      simp only [hasCloseDot]
      rw [ih]
      simp

theorem alnum_spec {c : Char} (h : c.isAlphanum = true) :
    c ≠ '(' ∧ c ≠ ')' ∧ c ≠ ',' ∧ c ≠ '.' ∧ c ≠ ' ' := by
  refine ⟨?_, ?_, ?_, ?_, ?_⟩ <;> (rintro rfl; revert h; decide)

theorem splitChar_cons_sep (sep : Char) (rest : List Char) :
    splitChar sep (sep :: rest) = [] :: splitChar sep rest := by
  simp [splitChar]

theorem splitChar_cons_ne (sep c : Char) (rest : List Char) (h : c ≠ sep) :
    splitChar sep (c :: rest) =
      (c :: (splitChar sep rest).headD []) :: (splitChar sep rest).tail := by
  simp [splitChar, h]

theorem splitChar_not_mem (sep : Char) (l : List Char) (h : sep ∉ l) :
    splitChar sep l = [l] := by
  induction l with
  | nil => rfl
  | cons c rest ih =>
    have hc : c ≠ sep := fun he => h (he ▸ List.mem_cons_self c rest)
    have hrest : sep ∉ rest := fun hm => h (List.mem_cons_of_mem c hm)
    rw [splitChar_cons_ne sep c rest hc, ih hrest]
    rfl

theorem splitChar_append_sep (sep : Char) (l r : List Char) (h : sep ∉ l) :
    splitChar sep (l ++ sep :: r) = l :: splitChar sep r := by
  induction l with
  | nil => simpa using splitChar_cons_sep sep r
  | cons c l' ih =>
    have hc : c ≠ sep := fun he => h (he ▸ List.mem_cons_self c l')
    have hl : sep ∉ l' := fun hm => h (List.mem_cons_of_mem c hm)
    rw [List.cons_append, splitChar_cons_ne sep c (l' ++ sep :: r) hc, ih hl]
    rfl

theorem splitChar_append_head (sep : Char) (a r : List Char) (h : sep ∉ a)
    (f : List Char) (t : List (List Char)) (hr : splitChar sep r = f :: t) :
    splitChar sep (a ++ r) = (a ++ f) :: t := by
  induction a with
  | nil => simpa using hr
  | cons c a' ih =>
    have hc : c ≠ sep := fun he => h (he ▸ List.mem_cons_self c a')
    have ha : sep ∉ a' := fun hm => h (List.mem_cons_of_mem c hm)
    rw [List.cons_append, splitChar_cons_ne sep c (a' ++ r) hc, ih ha]
    rfl

theorem splitChar_head (sep : Char) (l : List Char) :
    ∃ t, splitChar sep l = (l.takeWhile (fun c => c ≠ sep)) :: t := by
  induction l with
  | nil => exact ⟨[], rfl⟩
  | cons c rest ih =>
    by_cases hc : c = sep
    · refine ⟨splitChar sep rest, ?_⟩
      rw [hc, splitChar_cons_sep]
      simp [List.takeWhile_cons]
    · obtain ⟨t, ht⟩ := ih
      refine ⟨t, ?_⟩
      rw [splitChar_cons_ne sep c rest hc, ht]
      simp [List.takeWhile_cons, hc]

theorem splitChar_of_mem (sep : Char) (l : List Char) (h : sep ∈ l) :
    splitChar sep l =
      (l.takeWhile (fun c => c ≠ sep)) ::
        splitChar sep ((l.dropWhile (fun c => c ≠ sep)).tail) := by
  induction l with
  | nil => cases h
  | cons c rest ih =>
    by_cases hc : c = sep
    · rw [hc, splitChar_cons_sep]
      simp [List.takeWhile_cons, List.dropWhile_cons]
    · have hmem : sep ∈ rest := by
        rcases List.mem_cons.mp h with h1 | h1
        · exact absurd h1.symm hc
        · exact h1
      rw [splitChar_cons_ne sep c rest hc, ih hmem]
      simp [List.takeWhile_cons, List.dropWhile_cons, hc]

/-! ### Helper lemmas: takeWhile, dropWhile, filter -/

theorem takeWhile_append_all (p : Char → Bool) (l r : List Char)
    (h : ∀ c ∈ l, p c = true) : (l ++ r).takeWhile p = l ++ r.takeWhile p := by
  induction l with
  | nil => rfl
  | cons c l' ih =>
    have hc := h c (List.mem_cons_self c l')
    simp [List.takeWhile_cons, hc, ih (fun x hx => h x (List.mem_cons_of_mem c hx))]

theorem takeWhile_takeWhile_eq (p q : Char → Bool) (l : List Char) :
    (l.takeWhile p).takeWhile q = l.takeWhile (fun x => p x && q x) := by
  induction l with
  | nil => rfl
  | cons c l' ih =>
    cases hp : p c with
    | false => simp [List.takeWhile_cons, hp]
    | true =>
      cases hq : q c with
      | false => simp [List.takeWhile_cons, hp, hq]
      | true => simp [List.takeWhile_cons, hp, hq, ih]

theorem takeWhile_congr_fn (p q : Char → Bool) (l : List Char)
    (h : ∀ x, p x = q x) : l.takeWhile p = l.takeWhile q := by
  have : p = q := funext h
  rw [this]

theorem all_dropWhile (p q : Char → Bool) (l : List Char) (h : l.all p = true) :
    (l.dropWhile q).all p = true := by
  induction l with
  | nil => rfl
  | cons c l' ih =>
    rw [List.all_cons, Bool.and_eq_true] at h
    cases hq : q c with
    | false => simp [List.dropWhile_cons, hq, List.all_cons, h.1, h.2]
    | true =>
      simp only [List.dropWhile_cons, hq, if_true]
      exact ih h.2

theorem dropWhile_replicate_space (n : Nat) (f : List Char) :
    (List.replicate n ' ' ++ f).dropWhile (fun c => c = ' ')
      = f.dropWhile (fun c => c = ' ') := by
  induction n with
  | zero => rfl
  | succ n ih => simp [List.replicate_succ, List.dropWhile_cons, ih]

theorem stripSpaces_eq_self (l : List Char) (h : ∀ c ∈ l, c ≠ ' ') :
    stripSpaces l = l := by
  simp only [stripSpaces]
  rw [List.filter_eq_self]
  intro a ha
  simpa using h a ha

theorem stripSpaces_append (l r : List Char) :
    stripSpaces (l ++ r) = stripSpaces l ++ stripSpaces r := by
  simp [stripSpaces]

theorem stripSpaces_cons_keep (c : Char) (l : List Char) (h : c ≠ ' ') :
    stripSpaces (c :: l) = c :: stripSpaces l := by
  simp [stripSpaces, List.filter_cons, h]

theorem stripSpaces_replicate (n : Nat) :
    stripSpaces (List.replicate n ' ') = [] := by
  induction n with
  | zero => rfl
  | succ n ih =>
    simp only [List.replicate_succ, stripSpaces, List.filter_cons] at ih ⊢
    simp [ih]

/-! ### Helper lemmas: well-formed atom text -/

theorem joinArgsSp_mem (args : List (List Char)) (sps : List Nat) (c : Char)
    (h : c ∈ joinArgsSp args sps) : (∃ a ∈ args, c ∈ a) ∨ c = ',' ∨ c = ' ' := by
  induction args generalizing sps with
  | nil => cases h
  | cons a rest ih =>
    cases rest with
    | nil => exact Or.inl ⟨a, List.mem_cons_self a [], h⟩
    | cons b rest2 =>
      simp only [joinArgsSp] at h
      rcases List.mem_append.mp h with h1 | h2
      · exact Or.inl ⟨a, List.mem_cons_self a _, h1⟩
      · rcases List.mem_cons.mp h2 with h3 | h4
        · exact Or.inr (Or.inl h3)
        · rcases List.mem_append.mp h4 with h5 | h6
          · exact Or.inr (Or.inr (List.eq_of_mem_replicate h5))
          · rcases ih sps.tail h6 with ⟨x, hx, hcx⟩ | h7
            · exact Or.inl ⟨x, List.mem_cons_of_mem a hx, hcx⟩
            · exact Or.inr h7

theorem joinArgsSp_strip (args : List (List Char)) (sps : List Nat)
    (ha : ∀ a ∈ args, ∀ c ∈ a, c.isAlphanum = true) :
    stripSpaces (joinArgsSp args sps) = joinArgsSp args [] := by
  induction args generalizing sps with
  | nil => rfl
  | cons a rest ih =>
    cases rest with
    | nil =>
      exact stripSpaces_eq_self a
        (fun c hc => (alnum_spec (ha a (List.mem_cons_self a []) c hc)).2.2.2.2)
    | cons b rest2 =>
      have hsa : stripSpaces a = a := stripSpaces_eq_self a
        (fun c hc => (alnum_spec (ha a (List.mem_cons_self a _) c hc)).2.2.2.2)
      have hrest : ∀ x ∈ b :: rest2, ∀ c ∈ x, c.isAlphanum = true :=
        fun x hx => ha x (List.mem_cons_of_mem a hx)
      show stripSpaces (a ++ ',' :: (List.replicate (sps.headD 0) ' '
        ++ joinArgsSp (b :: rest2) sps.tail)) = _
      rw [stripSpaces_append, hsa, stripSpaces_cons_keep ',' _ (by decide),
        stripSpaces_append, stripSpaces_replicate, ih sps.tail hrest]
      rfl

theorem splitChar_joinArgs (args : List (List Char)) (hne : args ≠ [])
    (hnc : ∀ a ∈ args, ',' ∉ a) :
    splitChar ',' (joinArgsSp args []) = args := by
  induction args with
  | nil => cases hne rfl
  | cons a rest ih =>
    cases rest with
    | nil => exact splitChar_not_mem ',' a (hnc a (List.mem_cons_self a []))
    | cons b rest2 =>
      have hrest : ∀ x ∈ b :: rest2, ',' ∉ x :=
        fun x hx => hnc x (List.mem_cons_of_mem a hx)
      show splitChar ',' (a ++ ',' :: (List.replicate ((([] : List Nat)).headD 0) ' '
        ++ joinArgsSp (b :: rest2) ([] : List Nat).tail)) = _
      rw [splitChar_append_sep ',' a _ (hnc a (List.mem_cons_self a _))]
      simp only [List.headD, List.replicate, List.nil_append, List.tail]
      rw [ih (by simp) hrest]

theorem splitChar_joinArgsSp_all (args : List (List Char)) (sps : List Nat)
    (hne : args ≠ [])
    (ha : ∀ a ∈ args, ∀ c ∈ a, c.isAlphanum = true) :
    ∃ f t, splitChar ',' (joinArgsSp args sps) = f :: t ∧
      f.all Char.isAlphanum = true ∧
      t.all (fun seg => (seg.dropWhile (fun c => c = ' ')).all Char.isAlphanum) = true := by
  induction args generalizing sps with
  | nil => cases hne rfl
  | cons a rest ih =>
    have haa : a.all Char.isAlphanum = true :=
      List.all_eq_true.mpr (fun c hc => ha a (List.mem_cons_self a _) c hc)
    have hanc : ',' ∉ a :=
      fun hc => (alnum_spec (ha a (List.mem_cons_self a _) ',' hc)).2.2.1 rfl
    cases rest with
    | nil =>
      refine ⟨a, [], ?_, haa, rfl⟩
      exact splitChar_not_mem ',' a hanc
    | cons b rest2 =>
      have hrest : ∀ x ∈ b :: rest2, ∀ c ∈ x, c.isAlphanum = true :=
        fun x hx => ha x (List.mem_cons_of_mem a hx)
      obtain ⟨f, t, hsplit, hf, ht⟩ := ih sps.tail (by simp) hrest
      have hrepnc : ',' ∉ List.replicate (sps.headD 0) ' ' := by
        intro hc
        have := List.eq_of_mem_replicate hc
        cases this
      refine ⟨a, (List.replicate (sps.headD 0) ' ' ++ f) :: t, ?_, haa, ?_⟩
      · show splitChar ',' (a ++ ',' :: (List.replicate (sps.headD 0) ' '
          ++ joinArgsSp (b :: rest2) sps.tail)) = _
        rw [splitChar_append_sep ',' a _ hanc,
          splitChar_append_head ',' (List.replicate (sps.headD 0) ' ') _ hrepnc f t hsplit]
      · rw [List.all_cons, ht, Bool.and_true]
        rw [dropWhile_replicate_space]
        exact all_dropWhile _ _ f hf

theorem innerMatch_joinArgsSp (args : List (List Char)) (sps : List Nat)
    (hne : args ≠ [])
    (ha : ∀ a ∈ args, ∀ c ∈ a, c.isAlphanum = true) :
    innerMatch (joinArgsSp args sps) = true := by
  obtain ⟨f, t, hsplit, hf, ht⟩ := splitChar_joinArgsSp_all args sps hne ha
  simp [innerMatch, hsplit, hf, ht]

theorem parse_atomTextSp (h : List Char) (args : List (List Char)) (sps : List Nat)
    (hh : ∀ c ∈ h, c.isAlphanum = true)
    (hne : args ≠ [])
    (ha : ∀ a ∈ args, ∀ c ∈ a, c.isAlphanum = true) :
    parse (atomTextSp h args sps) = .ok ⟨h, args, []⟩ := by
  have hreg : regexSearch (atomTextSp h args sps) = true :=
    regexSearch_decomp h (joinArgsSp args sps) [] (innerMatch_joinArgsSp args sps hne ha)
  have hjmem : ∀ c ∈ joinArgsSp args [], c ≠ ')' ∧ c ≠ '(' := by
    intro c hc
    rcases joinArgsSp_mem args [] c hc with ⟨x, hx, hcx⟩ | hcs | hcs
    · have := alnum_spec (ha x hx c hcx)
      exact ⟨this.2.1, this.1⟩
    · subst hcs; exact ⟨by decide, by decide⟩
    · subst hcs; exact ⟨by decide, by decide⟩
  have hstrip : stripSpaces (atomTextSp h args sps) = atomTextSp h args [] := by
    show stripSpaces (h ++ '(' :: (joinArgsSp args sps ++ ')' :: '.' :: [])) = _
    rw [stripSpaces_append, stripSpaces_eq_self h (fun c hc => (alnum_spec (hh c hc)).2.2.2.2),
      stripSpaces_cons_keep '(' _ (by decide), stripSpaces_append,
      joinArgsSp_strip args sps ha,
      stripSpaces_cons_keep ')' _ (by decide), stripSpaces_cons_keep '.' _ (by decide)]
    rfl
  have hbefore : (atomTextSp h args []).takeWhile (fun c => c ≠ ')')
      = h ++ '(' :: joinArgsSp args [] := by
    show (h ++ '(' :: (joinArgsSp args [] ++ ')' :: '.' :: [])).takeWhile
      (fun c => decide (c ≠ ')')) = _
    rw [takeWhile_append_all _ h _
      (fun c hc => decide_eq_true (alnum_spec (hh c hc)).2.1)]
    rw [List.takeWhile_cons]
    simp only [decide_eq_true (by decide : ('(' : Char) ≠ ')'), if_true]
    rw [takeWhile_append_all _ (joinArgsSp args []) _
      (fun c hc => decide_eq_true (hjmem c hc).1)]
    simp [List.takeWhile_cons]
  have hsplit2 : splitChar '(' (h ++ '(' :: joinArgsSp args [])
      = h :: joinArgsSp args [] :: [] := by
    have hhnp : '(' ∉ h := fun hc => (alnum_spec (hh '(' hc)).1 rfl
    have hjnp : '(' ∉ joinArgsSp args [] := fun hc => (hjmem '(' hc).2 rfl
    rw [splitChar_append_sep '(' h _ hhnp, splitChar_not_mem '(' _ hjnp]
  have hcomma : ∀ a ∈ args, ',' ∉ a :=
    fun a hx hc => (alnum_spec (ha a hx ',' hc)).2.2.1 rfl
  simp only [parse, hreg, if_true, hstrip, hbefore, hsplit2]
  rw [splitChar_joinArgs args hne hcomma]

/-! ### Helper lemmas: characterizing parse on arbitrary input -/

theorem regexSearch_false_cond (s : List Char)
    (h : '(' ∉ s ∨ hasCloseDot s = false) : regexSearch s = false := by
  cases hr : regexSearch s with
  | false => rfl
  | true =>
    exfalso
    obtain ⟨pre, mid, post, hs, _⟩ := regexSearch_sound s hr
    rcases h with h | h
    · exact h (hs ▸ (by simp : '(' ∈ pre ++ '(' :: (mid ++ ')' :: '.' :: post)))
    · have htrue : hasCloseDot s = true := by
        rw [hs]
        have hassoc : pre ++ '(' :: (mid ++ ')' :: '.' :: post)
            = (pre ++ '(' :: mid) ++ ')' :: '.' :: post := by simp
        rw [hassoc]
        exact hasCloseDot_append _ _
      rw [htrue] at h
      cases h

theorem before_takeWhile_split (st : List Char)
    (h : '(' ∈ st.takeWhile (fun c => c ≠ ')')) :
    (st.takeWhile (fun c => c ≠ ')')).takeWhile (fun c => c ≠ '(')
        = st.takeWhile (fun c => c ≠ '(') ∧
    (((st.takeWhile (fun c => c ≠ ')')).dropWhile (fun c => c ≠ '(')).tail).takeWhile
        (fun c => c ≠ '(')
      = ((st.dropWhile (fun c => c ≠ '(')).tail).takeWhile
          (fun c => ¬(c = '(' ∨ c = ')')) := by
  induction st with
  | nil => simp at h
  | cons c r ih =>
    by_cases hcp : c = ')'
    · rw [hcp] at h
      simp [List.takeWhile_cons] at h
    · by_cases hco : c = '('
      · subst hco
        have e1 : List.takeWhile (fun c => decide (c ≠ ')')) ('(' :: r)
            = '(' :: List.takeWhile (fun c => decide (c ≠ ')')) r := by
          simp [List.takeWhile_cons]
        have e2 : List.dropWhile (fun c => decide (c ≠ '(')) ('(' :: r) = '(' :: r := by
          simp [List.dropWhile_cons]
        have e3 : List.dropWhile (fun c => decide (c ≠ '('))
            ('(' :: List.takeWhile (fun c => decide (c ≠ ')')) r)
            = '(' :: List.takeWhile (fun c => decide (c ≠ ')')) r := by
          simp [List.dropWhile_cons]
        have e4 : List.takeWhile (fun c => decide (c ≠ '('))
            ('(' :: List.takeWhile (fun c => decide (c ≠ ')')) r) = [] := by
          simp [List.takeWhile_cons]
        have e5 : List.takeWhile (fun c => decide (c ≠ '(')) ('(' :: r) = [] := by
          simp [List.takeWhile_cons]
        refine ⟨?_, ?_⟩
        · rw [e1, e4, e5]
        · rw [e1, e3, e2, List.tail_cons, List.tail_cons, takeWhile_takeWhile_eq]
          exact takeWhile_congr_fn _ _ r (fun x => by
            by_cases h1 : x = '(' <;> by_cases h2 : x = ')' <;> simp [h1, h2])
      · have hcr : '(' ∈ r.takeWhile (fun c => c ≠ ')') := by
          rw [List.takeWhile_cons] at h
          simp only [decide_eq_true (show c ≠ ')' from hcp), if_true] at h
          rcases List.mem_cons.mp h with h1 | h1
          · exact absurd h1.symm hco
          · exact h1
        obtain ⟨ih1, ih2⟩ := ih hcr
        constructor
        · rw [List.takeWhile_cons]
          simp only [decide_eq_true (show c ≠ ')' from hcp), if_true]
          rw [List.takeWhile_cons]
          simp only [decide_eq_true (show c ≠ '(' from hco), if_true]
          rw [List.takeWhile_cons]
          simp only [decide_eq_true (show c ≠ '(' from hco), if_true]
          rw [ih1]
        · rw [List.takeWhile_cons]
          simp only [decide_eq_true (show c ≠ ')' from hcp), if_true]
          rw [List.dropWhile_cons, List.dropWhile_cons]
          simp only [decide_eq_true (show c ≠ '(' from hco), if_true]
          exact ih2

theorem parse_ok_cases (s : List Char) :
    ((∃ a, parse s = .ok a) ↔
      (regexSearch s = true ∧ '(' ∈ (stripSpaces s).takeWhile (fun c => c ≠ ')'))) ∧
    (∀ a, parse s = .ok a →
      a.head = (stripSpaces s).takeWhile (fun c => c ≠ '(') ∧
      a.args = splitChar ','
        ((((stripSpaces s).dropWhile (fun c => c ≠ '(')).tail).takeWhile
          (fun c => ¬(c = '(' ∨ c = ')')))) := by
  cases hreg : regexSearch s with
  | false =>
    have hp : parse s = .error .syntaxFault := by
      unfold parse
      rw [if_neg (by simp [hreg])]
    refine ⟨⟨?_, ?_⟩, ?_⟩
    · rintro ⟨a, ha⟩
      rw [hp] at ha
      cases ha
    · rintro ⟨hr, _⟩
      cases hr
    · intro a ha
      rw [hp] at ha
      cases ha
  | true =>
    have hift : parse s =
        (match splitChar '(' ((stripSpaces s).takeWhile (fun c => c ≠ ')')) with
          | p0 :: p1 :: rest => Except.ok (⟨p0, splitChar ',' p1, rest⟩ : GAtom)
          | _ => Except.error Fault.indexFault) := by
      unfold parse
      rw [if_pos hreg]
    by_cases hmem : '(' ∈ (stripSpaces s).takeWhile (fun c => c ≠ ')')
    · obtain ⟨t2, ht2⟩ := splitChar_head '('
        ((((stripSpaces s).takeWhile (fun c => c ≠ ')')).dropWhile (fun c => c ≠ '(')).tail)
      have hsp := splitChar_of_mem '(' ((stripSpaces s).takeWhile (fun c => c ≠ ')')) hmem
      rw [ht2] at hsp
      have hp : parse s = Except.ok
          ⟨((stripSpaces s).takeWhile (fun c => c ≠ ')')).takeWhile (fun c => c ≠ '('),
           splitChar ','
             (((((stripSpaces s).takeWhile (fun c => c ≠ ')')).dropWhile
               (fun c => c ≠ '(')).tail).takeWhile (fun c => c ≠ '(')),
           t2⟩ := by
        rw [hift, hsp]
      obtain ⟨hb1, hb2⟩ := before_takeWhile_split (stripSpaces s) hmem
      refine ⟨⟨?_, ?_⟩, ?_⟩
      · intro _
        exact ⟨rfl, hmem⟩
      · intro _
        exact ⟨_, hp⟩
      · intro a ha
        rw [hp] at ha
        injection ha with ha
        subst ha
        exact ⟨hb1, congrArg (splitChar ',') hb2⟩
    · have hsp := splitChar_not_mem '(' ((stripSpaces s).takeWhile (fun c => c ≠ ')')) hmem
      have hp : parse s = .error .indexFault := by
        rw [hift, hsp]
      refine ⟨⟨?_, ?_⟩, ?_⟩
      · rintro ⟨a, ha⟩
        rw [hp] at ha
        cases ha
      · rintro ⟨_, hm⟩
        exact absurd hm hmem
      · intro a ha
        rw [hp] at ha
        cases ha

/-! ### Helper lemmas: frequency ranking -/

theorem pyKeysAux_mem [DecidableEq α] (l : List α) (a : α) :
    ∀ seen, a ∈ pyKeysAux l seen ↔ a ∈ l ∧ a ∉ seen := by
  induction l with
  | nil => intro seen; simp [pyKeysAux]
  | cons x xs ih =>
    intro seen
    by_cases hx : x ∈ seen
    · rw [pyKeysAux, if_pos hx, ih seen]
      constructor
      · rintro ⟨h1, h2⟩
        exact ⟨List.mem_cons_of_mem x h1, h2⟩
      · rintro ⟨h1, h2⟩
        rcases List.mem_cons.mp h1 with h3 | h3
        · exact absurd (h3 ▸ hx) h2
        · exact ⟨h3, h2⟩
    · rw [pyKeysAux, if_neg hx]
      constructor
      · intro h
        rcases List.mem_cons.mp h with h3 | h3
        · exact ⟨h3 ▸ List.mem_cons_self x xs, h3 ▸ hx⟩
        · rw [ih (x :: seen)] at h3
          exact ⟨List.mem_cons_of_mem x h3.1,
            fun hs => h3.2 (List.mem_cons_of_mem x hs)⟩
      · rintro ⟨h1, h2⟩
        by_cases hax : a = x
        · exact hax ▸ List.mem_cons_self x _
        · rcases List.mem_cons.mp h1 with h3 | h3
          · exact absurd h3 hax
          · refine List.mem_cons_of_mem x ((ih (x :: seen)).mpr ⟨h3, ?_⟩)
            intro hs
            rcases List.mem_cons.mp hs with h4 | h4
            · exact hax h4
            · exact h2 h4

theorem pyKeysAux_nodup [DecidableEq α] (l : List α) :
    ∀ seen, (pyKeysAux l seen).Nodup := by
  induction l with
  | nil => intro seen; exact List.nodup_nil
  | cons x xs ih =>
    intro seen
    by_cases hx : x ∈ seen
    · rw [pyKeysAux, if_pos hx]
      exact ih seen
    · rw [pyKeysAux, if_neg hx]
      refine List.nodup_cons.mpr ⟨?_, ih (x :: seen)⟩
      intro hmem
      exact ((pyKeysAux_mem xs x (x :: seen)).mp hmem).2 (List.mem_cons_self x seen)

theorem pyKeys_mem [DecidableEq α] (l : List α) (a : α) : a ∈ pyKeys l ↔ a ∈ l := by
  rw [pyKeys, pyKeysAux_mem]
  simp

theorem pyKeys_nodup [DecidableEq α] (l : List α) : (pyKeys l).Nodup :=
  pyKeysAux_nodup l []

theorem mem_rankList [DecidableEq α] (l : List α) (a : α) : a ∈ rankList l ↔ a ∈ l := by
  rw [rankList, List.mem_insertionSort]
  exact pyKeys_mem l a

theorem rankList_nodup [DecidableEq α] (l : List α) : (rankList l).Nodup :=
  ((List.perm_insertionSort _ _).nodup_iff).mpr (pyKeys_nodup l)

theorem rankList_sorted [DecidableEq α] (l : List α) :
    (rankList l).Sorted (fun a b => l.count b ≤ l.count a) := by
  haveI ht : IsTotal α (fun a b => l.count b ≤ l.count a) :=
    ⟨fun a b => Nat.le_total _ _⟩
  haveI htr : IsTrans α (fun a b => l.count b ≤ l.count a) :=
    ⟨fun a b c hab hbc => Nat.le_trans hbc hab⟩
  exact List.sorted_insertionSort _ _

theorem rankOf_lt_length [DecidableEq α] (l : List α) (a : α) (h : a ∈ l) :
    rankOf l a < (rankList l).length :=
  List.indexOf_lt_length.mpr ((mem_rankList l a).mpr h)

theorem rankOf_inj [DecidableEq α] (l : List α) (a b : α) (ha : a ∈ l) (hb : b ∈ l)
    (h : rankOf l a = rankOf l b) : a = b := by
  have ha2 : rankOf l a < (rankList l).length := rankOf_lt_length l a ha
  have hb2 : rankOf l b < (rankList l).length := rankOf_lt_length l b hb
  have h1 : (rankList l).get ⟨rankOf l a, ha2⟩ = a := List.indexOf_get ha2
  have h2 : (rankList l).get ⟨rankOf l b, hb2⟩ = b := List.indexOf_get hb2
  rw [← h1, ← h2]
  congr 1
  exact Fin.ext h

theorem rankOf_strict [DecidableEq α] (l : List α) (a b : α) (ha : a ∈ l) (hb : b ∈ l)
    (h : l.count b < l.count a) : rankOf l a < rankOf l b := by
  by_contra hle
  rcases Nat.eq_or_lt_of_le (Nat.le_of_not_lt hle) with heq | hlt
  · have hab : b = a := rankOf_inj l b a hb ha heq
    rw [hab] at h
    exact Nat.lt_irrefl _ h
  · have hs := rankList_sorted l
    have hget := List.pairwise_iff_get.mp hs
      ⟨rankOf l b, rankOf_lt_length l b hb⟩
      ⟨rankOf l a, rankOf_lt_length l a ha⟩ hlt
    simp only [rankOf] at hget
    rw [List.indexOf_get, List.indexOf_get] at hget
    exact absurd h (Nat.not_lt.mpr hget)

theorem rankOf_zero_max [DecidableEq α] (l : List α) (hne : l ≠ []) :
    ∃ m, m ∈ l ∧ rankOf l m = 0 ∧ ∀ b ∈ l, l.count b ≤ l.count m := by
  cases hrl : rankList l with
  | nil =>
    exfalso
    obtain ⟨x, hx⟩ := List.exists_mem_of_ne_nil l hne
    have hx2 : x ∈ rankList l := (mem_rankList l x).mpr hx
    rw [hrl] at hx2
    cases hx2
  | cons m t =>
    have hm : m ∈ l := (mem_rankList l m).mp (by rw [hrl]; exact List.mem_cons_self m t)
    refine ⟨m, hm, ?_, ?_⟩
    · simp only [rankOf]
      rw [hrl]
      exact List.indexOf_cons_self m t
    · intro b hb
      have hbr : b ∈ rankList l := (mem_rankList l b).mpr hb
      rw [hrl] at hbr
      rcases List.mem_cons.mp hbr with h1 | h1
      · exact h1 ▸ Nat.le_refl _
      · have hs := rankList_sorted l
        rw [hrl] at hs
        exact (List.pairwise_cons.mp hs).1 b h1

/-! ### Helper lemmas: the set dictionary -/

theorem dictLookup_isSome_iff (k : Nat) (d : SetDict) :
    (dictLookup k d).isSome = true ↔ k ∈ d.map Prod.fst := by
  induction d with
  | nil => simp [dictLookup]
  | cons kv rest ih =>
    by_cases hk : kv.1 = k
    · rw [dictLookup, if_pos hk]
      simp [hk]
    · rw [dictLookup, if_neg hk, ih]
      simp only [List.map_cons, List.mem_cons]
      constructor
      · exact Or.inr
      · rintro (h | h)
        · exact absurd h.symm hk
        · exact h

theorem dictLookup_none_of_not_mem (k : Nat) (d : SetDict)
    (h : k ∉ d.map Prod.fst) : dictLookup k d = none := by
  cases hl : dictLookup k d with
  | none => rfl
  | some v =>
    exfalso
    exact h ((dictLookup_isSome_iff k d).mp (by rw [hl]; rfl))

theorem dictLookup_mem (k : Nat) (v : List (Finset Nat)) (d : SetDict)
    (h : dictLookup k d = some v) : (k, v) ∈ d := by
  induction d with
  | nil => cases h
  | cons kv rest ih =>
    by_cases hk : kv.1 = k
    · rw [dictLookup, if_pos hk] at h
      injection h with h
      refine List.mem_cons.mpr (Or.inl ?_)
      rw [← hk, ← h]
    · rw [dictLookup, if_neg hk] at h
      exact List.mem_cons_of_mem kv (ih h)

theorem mem_dictLookup (k : Nat) (v : List (Finset Nat)) (d : SetDict)
    (hnd : (d.map Prod.fst).Nodup) (h : (k, v) ∈ d) : dictLookup k d = some v := by
  induction d with
  | nil => cases h
  | cons kv rest ih =>
    rcases List.mem_cons.mp h with h1 | h1
    · rw [← h1, dictLookup, if_pos rfl]
    · have hk : kv.1 ≠ k := by
        intro he
        have : k ∈ rest.map Prod.fst :=
          List.mem_map.mpr ⟨(k, v), h1, rfl⟩
        exact (List.nodup_cons.mp hnd).1 (he ▸ this)
      rw [dictLookup, if_neg hk]
      exact ih (List.nodup_cons.mp hnd).2 h1

theorem dictLookup_append_left (k : Nat) (v : List (Finset Nat)) (d1 d2 : SetDict)
    (h : dictLookup k d1 = some v) : dictLookup k (d1 ++ d2) = some v := by
  induction d1 with
  | nil => cases h
  | cons kv rest ih =>
    by_cases hk : kv.1 = k
    · rw [dictLookup, if_pos hk] at h
      rw [List.cons_append, dictLookup, if_pos hk]
      exact h
    · rw [dictLookup, if_neg hk] at h
      rw [List.cons_append, dictLookup, if_neg hk]
      exact ih h

theorem dictLookup_append_right (k : Nat) (d1 d2 : SetDict)
    (h : dictLookup k d1 = none) : dictLookup k (d1 ++ d2) = dictLookup k d2 := by
  induction d1 with
  | nil => rfl
  | cons kv rest ih =>
    by_cases hk : kv.1 = k
    · rw [dictLookup, if_pos hk] at h
      cases h
    · rw [dictLookup, if_neg hk] at h
      rw [List.cons_append, dictLookup, if_neg hk]
      exact ih h

theorem dictUpdate_keys (k : Nat) (v : List (Finset Nat)) (d : SetDict) :
    (dictUpdate k v d).map Prod.fst = d.map Prod.fst := by
  induction d with
  | nil => rfl
  | cons kv rest ih =>
    by_cases hk : kv.1 = k
    · rw [dictUpdate, if_pos hk]
      simp
    · rw [dictUpdate, if_neg hk]
      simp only [List.map_cons]
      rw [ih]

theorem dictLookup_update_self (k : Nat) (v : List (Finset Nat)) (d : SetDict)
    (h : (dictLookup k d).isSome = true) :
    dictLookup k (dictUpdate k v d) = some v := by
  induction d with
  | nil => cases h
  | cons kv rest ih =>
    by_cases hk : kv.1 = k
    · rw [dictUpdate, if_pos hk, dictLookup, if_pos hk]
    · rw [dictLookup, if_neg hk] at h
      rw [dictUpdate, if_neg hk, dictLookup, if_neg hk]
      exact ih h

theorem dictLookup_update_other (k k2 : Nat) (v : List (Finset Nat)) (d : SetDict)
    (h : k2 ≠ k) : dictLookup k2 (dictUpdate k v d) = dictLookup k2 d := by
  induction d with
  | nil => rfl
  | cons kv rest ih =>
    by_cases hk : kv.1 = k
    · rw [dictUpdate, if_pos hk]
      have hk2 : kv.1 ≠ k2 := fun he => h (he.symm.trans hk)
      simp [dictLookup, hk2]
    · rw [dictUpdate, if_neg hk]
      by_cases hk3 : kv.1 = k2
      · rw [dictLookup, if_pos hk3, dictLookup, if_pos hk3]
      · rw [dictLookup, if_neg hk3, dictLookup, if_neg hk3]
        exact ih

theorem updateSets_length (br : List Char → Nat) (args : List (List Char))
    (sets : List (Finset Nat)) (h : args.length ≤ sets.length) :
    (updateSets br args sets).length = sets.length := by
  induction args generalizing sets with
  | nil => rfl
  | cons a as ih =>
    cases sets with
    | nil => cases h
    | cons st ss =>
      rw [updateSets]
      simp only [List.length_cons]
      rw [ih ss (Nat.le_of_succ_le_succ h)]

theorem updateSets_getD (br : List Char → Nat) (args : List (List Char))
    (sets : List (Finset Nat)) (p : Nat) :
    (updateSets br args sets).getD p ∅ =
      if p < args.length ∧ p < sets.length then
        insert (br (args.getD p [])) (sets.getD p ∅)
      else sets.getD p ∅ := by
  induction args generalizing sets p with
  | nil =>
    rw [updateSets]
    simp
  | cons a as ih =>
    cases sets with
    | nil =>
      rw [updateSets]
      simp
    | cons st ss =>
      rw [updateSets]
      cases p with
      | zero => simp
      | succ q =>
        simp only [List.getD_cons_succ, List.length_cons, Nat.succ_lt_succ_iff]
        exact ih ss q

theorem replicate_getD (n p : Nat) :
    (List.replicate n (∅ : Finset Nat)).getD p ∅ = ∅ := by
  induction n generalizing p with
  | zero => simp
  | succ m ih =>
    cases p with
    | zero => simp [List.replicate_succ]
    | succ q => simp [List.replicate_succ, ih]

theorem dictLookup_new_self (k : Nat) (v : List (Finset Nat)) (dict : SetDict)
    (hlook : dictLookup k dict = none) :
    dictLookup k (dict ++ [(k, v)]) = some v := by
  rw [dictLookup_append_right k dict _ hlook, dictLookup, if_pos rfl]

theorem dictLookup_new_other (k k2 : Nat) (v : List (Finset Nat)) (dict : SetDict)
    (h : k2 ≠ k) : dictLookup k2 (dict ++ [(k, v)]) = dictLookup k2 dict := by
  cases hl : dictLookup k2 dict with
  | some w => exact dictLookup_append_left k2 w dict _ hl
  | none =>
    rw [dictLookup_append_right k2 dict _ hl, dictLookup,
      if_neg (fun he => h he.symm)]
    rfl

theorem slotSpec_append (hr br : List Char → Nat) (done : List PAtom) (a : PAtom)
    (k p c : Nat) :
    slotSpec hr br (done ++ [a]) k p c ↔
      slotSpec hr br done k p c ∨
        (hr a.1 = k ∧ p < a.2.length ∧ br (a.2.getD p []) = c) := by
  unfold slotSpec
  constructor
  · rintro ⟨x, hx, hk, hp, hc⟩
    rcases List.mem_append.mp hx with h1 | h1
    · exact Or.inl ⟨x, h1, hk, hp, hc⟩
    · obtain rfl := List.mem_singleton.mp h1
      exact Or.inr ⟨hk, hp, hc⟩
  · rintro (⟨x, hx, hk, hp, hc⟩ | ⟨hk, hp, hc⟩)
    · exact ⟨x, List.mem_append.mpr (Or.inl hx), hk, hp, hc⟩
    · exact ⟨a, List.mem_append.mpr (Or.inr (List.mem_singleton.mpr rfl)), hk, hp, hc⟩

theorem dictInv_new (hr br : List Char → Nat) (dict : SetDict) (done : List PAtom)
    (a : PAtom) (hinv : dictInv hr br dict done)
    (hlook : dictLookup (hr a.1) dict = none) :
    dictInv hr br
      (dict ++ [(hr a.1, updateSets br a.2 (List.replicate a.2.length ∅))])
      (done ++ [a]) := by
  obtain ⟨hnd, hiff, hcont⟩ := hinv
  have hknotin : hr a.1 ∉ dict.map Prod.fst := by
    intro hmem
    rw [← dictLookup_isSome_iff, hlook] at hmem
    cases hmem
  have hnodone : ∀ x ∈ done, hr x.1 ≠ hr a.1 := by
    intro x hx he
    have hsome : (dictLookup (hr a.1) dict).isSome = true :=
      (hiff (hr a.1)).mpr ⟨x, hx, he⟩
    rw [hlook] at hsome
    cases hsome
  have hulen : (updateSets br a.2 (List.replicate a.2.length ∅)).length
      = a.2.length := by
    rw [updateSets_length br a.2 _ (by simp), List.length_replicate]
  refine ⟨?_, ?_, ?_⟩
  · rw [List.map_append, List.nodup_append]
    refine ⟨hnd, List.nodup_singleton _, ?_⟩
    intro x hx hx2
    simp only [List.map_cons, List.map_nil, List.mem_singleton] at hx2
    exact hknotin (hx2 ▸ hx)
  · intro k
    by_cases hk : k = hr a.1
    · subst hk
      constructor
      · intro _
        exact ⟨a, List.mem_append.mpr (Or.inr (List.mem_singleton.mpr rfl)), rfl⟩
      · intro _
        rw [dictLookup_new_self _ _ _ hlook]
        rfl
    · rw [dictLookup_new_other _ _ _ _ hk, hiff k]
      constructor
      · rintro ⟨x, hx, he⟩
        exact ⟨x, List.mem_append.mpr (Or.inl hx), he⟩
      · rintro ⟨x, hx, he⟩
        rcases List.mem_append.mp hx with h1 | h1
        · exact ⟨x, h1, he⟩
        · obtain rfl := List.mem_singleton.mp h1
          exact absurd he.symm hk
  · intro k sets hl
    by_cases hk : k = hr a.1
    · subst hk
      rw [dictLookup_new_self _ _ _ hlook] at hl
      injection hl with hl
      subst hl
      constructor
      · intro x hx hkx
        rcases List.mem_append.mp hx with h1 | h1
        · exact absurd hkx (hnodone x h1)
        · obtain rfl := List.mem_singleton.mp h1
          exact hulen
      · intro p hp c
        rw [hulen] at hp
        rw [updateSets_getD, if_pos ⟨hp, by simpa using hp⟩, replicate_getD,
          slotSpec_append]
        constructor
        · intro hc
          have hc2 : c = br (a.2.getD p []) := by
            rcases Finset.mem_insert.mp hc with h2 | h2
            · exact h2
            · exact absurd h2 (Finset.not_mem_empty c)
          exact Or.inr ⟨rfl, hp, hc2.symm⟩
        · rintro (⟨x, hx, hkx, _, _⟩ | ⟨_, _, hc⟩)
          · exact absurd hkx (hnodone x hx)
          · rw [← hc]
            exact Finset.mem_insert_self _ _
    · rw [dictLookup_new_other _ _ _ _ hk] at hl
      obtain ⟨hlen, hsets⟩ := hcont k sets hl
      constructor
      · intro x hx hkx
        rcases List.mem_append.mp hx with h1 | h1
        · exact hlen x h1 hkx
        · obtain rfl := List.mem_singleton.mp h1
          exact absurd hkx.symm hk
      · intro p hp c
        rw [hsets p hp c, slotSpec_append]
        constructor
        · exact Or.inl
        · rintro (h1 | ⟨hkx, _, _⟩)
          · exact h1
          · exact absurd hkx.symm hk

theorem dictInv_upd (hr br : List Char → Nat) (dict : SetDict) (done : List PAtom)
    (a : PAtom) (sets : List (Finset Nat)) (hinv : dictInv hr br dict done)
    (hlook : dictLookup (hr a.1) dict = some sets)
    (hlen : a.2.length = sets.length) :
    dictInv hr br (dictUpdate (hr a.1) (updateSets br a.2 sets) dict) (done ++ [a]) := by
  obtain ⟨hnd, hiff, hcont⟩ := hinv
  have hulen : (updateSets br a.2 sets).length = sets.length :=
    updateSets_length br a.2 sets (Nat.le_of_eq hlen)
  refine ⟨?_, ?_, ?_⟩
  · rw [dictUpdate_keys]
    exact hnd
  · intro k
    by_cases hk : k = hr a.1
    · subst hk
      constructor
      · intro _
        exact ⟨a, List.mem_append.mpr (Or.inr (List.mem_singleton.mpr rfl)), rfl⟩
      · intro _
        rw [dictLookup_update_self _ _ _ (by rw [hlook]; rfl)]
        rfl
    · rw [dictLookup_update_other _ _ _ _ hk, hiff k]
      constructor
      · rintro ⟨x, hx, he⟩
        exact ⟨x, List.mem_append.mpr (Or.inl hx), he⟩
      · rintro ⟨x, hx, he⟩
        rcases List.mem_append.mp hx with h1 | h1
        · exact ⟨x, h1, he⟩
        · obtain rfl := List.mem_singleton.mp h1
          exact absurd he.symm hk
  · intro k sets2 hl
    by_cases hk : k = hr a.1
    · subst hk
      rw [dictLookup_update_self _ _ _ (by rw [hlook]; rfl)] at hl
      injection hl with hl
      subst hl
      obtain ⟨hlenold, hsetsold⟩ := hcont (hr a.1) sets hlook
      constructor
      · intro x hx hkx
        rcases List.mem_append.mp hx with h1 | h1
        · rw [hulen]
          exact hlenold x h1 hkx
        · obtain rfl := List.mem_singleton.mp h1
          rw [hulen, hlen]
      · intro p hp c
        rw [hulen] at hp
        have hpa : p < a.2.length := hlen ▸ hp
        rw [updateSets_getD, if_pos ⟨hpa, hp⟩, slotSpec_append,
          Finset.mem_insert, hsetsold p hp c]
        constructor
        · rintro (hc | h1)
          · exact Or.inr ⟨rfl, hpa, hc.symm⟩
          · exact Or.inl h1
        · rintro (h1 | ⟨_, _, hc⟩)
          · exact Or.inr h1
          · exact Or.inl hc.symm
    · rw [dictLookup_update_other _ _ _ _ hk] at hl
      obtain ⟨hlen2, hsets2⟩ := hcont k sets2 hl
      constructor
      · intro x hx hkx
        rcases List.mem_append.mp hx with h1 | h1
        · exact hlen2 x h1 hkx
        · obtain rfl := List.mem_singleton.mp h1
          exact absurd hkx.symm hk
      · intro p hp c
        rw [hsets2 p hp c, slotSpec_append]
        constructor
        · exact Or.inl
        · rintro (h1 | ⟨hkx, _, _⟩)
          · exact h1
          · exact absurd hkx.symm hk

theorem compressList_unfold_ok (hr br : List Char → Nat) (dict d2 : SetDict)
    (a : PAtom) (rest : List PAtom) (hstep : compressStep hr br dict a = .ok d2) :
    compressList hr br dict (a :: rest) = compressList hr br d2 rest := by
  simp only [compressList]
  rw [hstep]

theorem compressList_unfold_err (hr br : List Char → Nat) (dict : SetDict)
    (a : PAtom) (rest : List PAtom) (e : Fault)
    (hstep : compressStep hr br dict a = .error e) :
    compressList hr br dict (a :: rest) = .error e := by
  simp only [compressList]
  rw [hstep]

theorem compressList_inv (hr br : List Char → Nat) :
    ∀ (rest : List PAtom) (dict : SetDict) (done : List PAtom),
    dictInv hr br dict done →
    (∀ a ∈ done ++ rest, ∀ b ∈ done ++ rest,
      hr a.1 = hr b.1 → a.2.length = b.2.length) →
    ∃ d, compressList hr br dict rest = .ok d ∧ dictInv hr br d (done ++ rest) := by
  intro rest
  induction rest with
  | nil =>
    intro dict done hinv _
    exact ⟨dict, rfl, by simpa using hinv⟩
  | cons a rest ih =>
    intro dict done hinv hcons
    have hassoc : (done ++ [a]) ++ rest = done ++ a :: rest := by simp
    cases hlook : dictLookup (hr a.1) dict with
    | none =>
      have hstep : compressStep hr br dict a = .ok
          (dict ++ [(hr a.1, updateSets br a.2 (List.replicate a.2.length ∅))]) := by
        unfold compressStep
        rw [hlook]
      have hinv2 := dictInv_new hr br dict done a hinv hlook
      obtain ⟨d, hd, hinvd⟩ := ih
        (dict ++ [(hr a.1, updateSets br a.2 (List.replicate a.2.length ∅))])
        (done ++ [a]) hinv2 (by rw [hassoc]; exact hcons)
      refine ⟨d, ?_, ?_⟩
      · rw [compressList_unfold_ok hr br dict _ a rest hstep]
        exact hd
      · rw [← hassoc]
        exact hinvd
    | some sets =>
      obtain ⟨x, hx, hxk⟩ := (hinv.2.1 (hr a.1)).mp (by rw [hlook]; rfl)
      have hxlen := (hinv.2.2 (hr a.1) sets hlook).1 x hx hxk
      have halen : a.2.length = sets.length := by
        rw [hxlen]
        exact (hcons x (List.mem_append.mpr (Or.inl hx)) a
          (List.mem_append.mpr (Or.inr (List.mem_cons_self a rest))) hxk).symm
      have hstep : compressStep hr br dict a = .ok
          (dictUpdate (hr a.1) (updateSets br a.2 sets) dict) := by
        unfold compressStep
        rw [hlook]
        exact if_pos (Nat.le_of_eq halen)
      have hinv2 := dictInv_upd hr br dict done a sets hinv hlook halen
      obtain ⟨d, hd, hinvd⟩ := ih
        (dictUpdate (hr a.1) (updateSets br a.2 sets) dict)
        (done ++ [a]) hinv2 (by rw [hassoc]; exact hcons)
      refine ⟨d, ?_, ?_⟩
      · rw [compressList_unfold_ok hr br dict _ a rest hstep]
        exact hd
      · rw [← hassoc]
        exact hinvd

theorem firstWithCode_append (hr : List Char → Nat) (l1 l2 : List PAtom) (k : Nat) :
    firstWithCode hr (l1 ++ l2) k
      = (firstWithCode hr l1 k).or (firstWithCode hr l2 k) := by
  unfold firstWithCode
  exact List.find?_append

theorem firstWithCode_single_self (hr : List Char → Nat) (a : PAtom) :
    firstWithCode hr [a] (hr a.1) = some a := by
  unfold firstWithCode
  simp [List.find?]

theorem firstWithCode_single_other (hr : List Char → Nat) (a : PAtom) (k : Nat)
    (h : k ≠ hr a.1) : firstWithCode hr [a] k = none := by
  unfold firstWithCode
  have hd : decide (hr a.1 = k) = false := decide_eq_false (fun he => h he.symm)
  simp [List.find?, hd]

theorem estInv_nil (hr : List Char → Nat) : estInv hr [] [] := by
  constructor
  · intro k
    simp [dictLookup, firstWithCode, List.find?]
  · intro k sets b h
    cases h

theorem firstWithCode_cons_self (hr : List Char → Nat) (a : PAtom) (l : List PAtom) :
    firstWithCode hr (a :: l) (hr a.1) = some a := by
  unfold firstWithCode
  simp [List.find?]

theorem estInv_new (hr br : List Char → Nat) (dict : SetDict) (done : List PAtom)
    (a : PAtom) (hest : estInv hr dict done)
    (hlook : dictLookup (hr a.1) dict = none) :
    estInv hr
      (dict ++ [(hr a.1, updateSets br a.2 (List.replicate a.2.length ∅))])
      (done ++ [a]) := by
  obtain ⟨hiff, hlen⟩ := hest
  have hfd : firstWithCode hr done (hr a.1) = none := by
    cases hf : firstWithCode hr done (hr a.1) with
    | none => rfl
    | some b =>
      have h1 := (hiff (hr a.1)).mpr (by rw [hf]; rfl)
      rw [hlook] at h1
      cases h1
  have hulen : (updateSets br a.2 (List.replicate a.2.length ∅)).length
      = a.2.length := by
    rw [updateSets_length br a.2 _ (by simp), List.length_replicate]
  have hon : ∀ (o : Option PAtom), o.or none = o := fun o => by cases o <;> rfl
  constructor
  · intro k
    by_cases hk : k = hr a.1
    · subst hk
      rw [dictLookup_new_self _ _ _ hlook, firstWithCode_append, hfd,
        firstWithCode_single_self]
      rfl
    · rw [dictLookup_new_other _ _ _ _ hk, firstWithCode_append,
        firstWithCode_single_other hr a k hk, hon]
      exact hiff k
  · intro k sets b hl hf
    by_cases hk : k = hr a.1
    · subst hk
      rw [dictLookup_new_self _ _ _ hlook] at hl
      injection hl with hl
      rw [firstWithCode_append, hfd, firstWithCode_single_self] at hf
      have hf2 : some a = some b := hf
      injection hf2 with hf2
      rw [← hl, ← hf2, hulen]
    · rw [dictLookup_new_other _ _ _ _ hk] at hl
      rw [firstWithCode_append, firstWithCode_single_other hr a k hk, hon] at hf
      exact hlen k sets b hl hf

theorem estInv_upd (hr br : List Char → Nat) (dict : SetDict) (done : List PAtom)
    (a : PAtom) (sets : List (Finset Nat)) (b0 : PAtom) (hest : estInv hr dict done)
    (hlook : dictLookup (hr a.1) dict = some sets)
    (hb0 : firstWithCode hr done (hr a.1) = some b0)
    (hguard : a.2.length ≤ sets.length) :
    estInv hr (dictUpdate (hr a.1) (updateSets br a.2 sets) dict) (done ++ [a]) := by
  obtain ⟨hiff, hlen⟩ := hest
  have hulen : (updateSets br a.2 sets).length = sets.length :=
    updateSets_length br a.2 sets hguard
  have hon : ∀ (o : Option PAtom), o.or none = o := fun o => by cases o <;> rfl
  constructor
  · intro k
    by_cases hk : k = hr a.1
    · subst hk
      rw [dictLookup_update_self _ _ _ (by rw [hlook]; rfl),
        firstWithCode_append, hb0]
      rfl
    · rw [dictLookup_update_other _ _ _ _ hk, firstWithCode_append,
        firstWithCode_single_other hr a k hk, hon]
      exact hiff k
  · intro k sets2 b hl hf
    by_cases hk : k = hr a.1
    · subst hk
      rw [dictLookup_update_self _ _ _ (by rw [hlook]; rfl)] at hl
      injection hl with hl
      rw [firstWithCode_append, hb0] at hf
      have hf2 : some b0 = some b := hf
      injection hf2 with hf2
      rw [← hl, ← hf2, hulen]
      exact hlen (hr a.1) sets b0 hlook hb0
    · rw [dictLookup_update_other _ _ _ _ hk] at hl
      rw [firstWithCode_append, firstWithCode_single_other hr a k hk, hon] at hf
      exact hlen k sets2 b hl hf

theorem compressList_ok_iff (hr br : List Char → Nat) :
    ∀ (rest : List PAtom) (dict : SetDict) (done : List PAtom),
    estInv hr dict done →
    ((∃ d, compressList hr br dict rest = .ok d) ↔
      ∀ a ∈ rest, ∀ b, firstWithCode hr (done ++ rest) (hr a.1) = some b →
        a.2.length ≤ b.2.length) := by
  intro rest
  induction rest with
  | nil =>
    intro dict done hest
    constructor
    · intro _ a ha
      cases ha
    · intro _
      exact ⟨dict, rfl⟩
  | cons a rest ih =>
    intro dict done hest
    have hassoc : (done ++ [a]) ++ rest = done ++ a :: rest := by simp
    cases hlook : dictLookup (hr a.1) dict with
    | none =>
      have hfd : firstWithCode hr done (hr a.1) = none := by
        cases hf : firstWithCode hr done (hr a.1) with
        | none => rfl
        | some b =>
          have h1 := (hest.1 (hr a.1)).mpr (by rw [hf]; rfl)
          rw [hlook] at h1
          cases h1
      have hfa : firstWithCode hr (done ++ a :: rest) (hr a.1) = some a := by
        rw [firstWithCode_append, hfd, firstWithCode_cons_self]
        rfl
      have hstep : compressStep hr br dict a = .ok
          (dict ++ [(hr a.1, updateSets br a.2 (List.replicate a.2.length ∅))]) := by
        unfold compressStep
        rw [hlook]
      have hest2 := estInv_new hr br dict done a hest hlook
      rw [compressList_unfold_ok hr br dict _ a rest hstep,
        ih _ (done ++ [a]) hest2, hassoc]
      constructor
      · intro h x hx b hb
        rcases List.mem_cons.mp hx with h1 | h1
        · subst h1
          rw [hfa] at hb
          injection hb with hb
          cases hb
          exact Nat.le_refl _
        · exact h x h1 b hb
      · intro h x hx b hb
        exact h x (List.mem_cons_of_mem a hx) b hb
    | some sets =>
      obtain ⟨b0, hb0⟩ := Option.isSome_iff_exists.mp
        ((hest.1 (hr a.1)).mp (by rw [hlook]; rfl))
      have hslen : sets.length = b0.2.length := hest.2 (hr a.1) sets b0 hlook hb0
      have hfa : firstWithCode hr (done ++ a :: rest) (hr a.1) = some b0 := by
        rw [firstWithCode_append, hb0]
        rfl
      by_cases hguard : a.2.length ≤ sets.length
      · have hstep : compressStep hr br dict a = .ok
            (dictUpdate (hr a.1) (updateSets br a.2 sets) dict) := by
          unfold compressStep
          rw [hlook]
          exact if_pos hguard
        have hest2 := estInv_upd hr br dict done a sets b0 hest hlook hb0 hguard
        rw [compressList_unfold_ok hr br dict _ a rest hstep,
          ih _ (done ++ [a]) hest2, hassoc]
        constructor
        · intro h x hx b hb
          rcases List.mem_cons.mp hx with h1 | h1
          · subst h1
            rw [hfa] at hb
            injection hb with hb
            cases hb
            rw [← hslen]
            exact hguard
          · exact h x h1 b hb
        · intro h x hx b hb
          exact h x (List.mem_cons_of_mem a hx) b hb
      · have hstep : compressStep hr br dict a = .error .indexFault := by
          unfold compressStep
          rw [hlook]
          exact if_neg hguard
        rw [compressList_unfold_err hr br dict a rest _ hstep]
        constructor
        · rintro ⟨d, hd⟩
          cases hd
        · intro h
          exfalso
          have h1 := h a (List.mem_cons_self a rest) b0 hfa
          exact hguard (by rw [hslen]; exact h1)

/-! ### Helper lemmas: the clustering loop -/

theorem sweep_eq (c : USlot) (tid : Nat) :
    ∀ (snap kept : List USlot),
    (∀ x ∈ kept, ¬(c.oset ∩ x.oset).Nonempty) →
    sweep c tid snap (kept ++ snap) =
      (kept ++ snap.filter (fun u => !decide (c.oset ∩ u.oset).Nonempty),
       (snap.filter (fun u => decide (c.oset ∩ u.oset).Nonempty)).map
         (fun u => ⟨u.name, u.oset, tid⟩)) := by
  intro snap
  induction snap with
  | nil =>
    intro kept hkept
    simp [sweep]
  | cons u rest ih =>
    intro kept hkept
    by_cases hi : (c.oset ∩ u.oset).Nonempty
    · have hnmem : u ∉ kept := fun hm => hkept u hm hi
      have herase : (kept ++ u :: rest).erase u = kept ++ rest := by
        rw [List.erase_append_right _ hnmem, List.erase_cons_head]
      rw [sweep, if_pos hi, herase, ih kept hkept]
      simp [List.filter_cons, hi]
    · have hkept2 : ∀ x ∈ kept ++ [u], ¬(c.oset ∩ x.oset).Nonempty := by
        intro x hx
        rcases List.mem_append.mp hx with h1 | h1
        · exact hkept x h1
        · obtain rfl := List.mem_singleton.mp h1
          exact hi
      have hshift : kept ++ u :: rest = (kept ++ [u]) ++ rest := by simp
      rw [sweep, if_neg hi, hshift, ih (kept ++ [u]) hkept2]
      simp [List.filter_cons, hi]

theorem sweep_fst_length (c : USlot) (tid : Nat) :
    ∀ (snap cur : List USlot), (sweep c tid snap cur).1.length ≤ cur.length := by
  intro snap
  induction snap with
  | nil => intro cur; exact Nat.le_refl _
  | cons u rest ih =>
    intro cur
    by_cases hi : (c.oset ∩ u.oset).Nonempty
    · rw [sweep, if_pos hi]
      exact Nat.le_trans (ih (cur.erase u))
        (List.Sublist.length_le (List.erase_sublist u cur))
    · rw [sweep, if_neg hi]
      exact ih cur

theorem pltiLoop_cons (pick : Nat → Nat) (n fuel round ctr : Nat) (typed : List TSlot)
    (u0 : USlot) (us : List USlot) (hctrlt : ctr < n) :
    pltiLoop pick n (fuel + 1) round (u0 :: us) ctr typed =
      pltiLoop pick n fuel (round + 1)
        (sweep ((u0 :: us).get ⟨pick round % (us.length + 1),
            Nat.mod_lt _ (Nat.succ_pos _)⟩) ctr
          ((u0 :: us).erase ((u0 :: us).get ⟨pick round % (us.length + 1),
            Nat.mod_lt _ (Nat.succ_pos _)⟩))
          ((u0 :: us).erase ((u0 :: us).get ⟨pick round % (us.length + 1),
            Nat.mod_lt _ (Nat.succ_pos _)⟩))).1
        (ctr + 1)
        (typed ++
          ⟨((u0 :: us).get ⟨pick round % (us.length + 1),
              Nat.mod_lt _ (Nat.succ_pos _)⟩).name,
           ((u0 :: us).get ⟨pick round % (us.length + 1),
              Nat.mod_lt _ (Nat.succ_pos _)⟩).oset, ctr⟩ ::
          (sweep ((u0 :: us).get ⟨pick round % (us.length + 1),
              Nat.mod_lt _ (Nat.succ_pos _)⟩) ctr
            ((u0 :: us).erase ((u0 :: us).get ⟨pick round % (us.length + 1),
              Nat.mod_lt _ (Nat.succ_pos _)⟩))
            ((u0 :: us).erase ((u0 :: us).get ⟨pick round % (us.length + 1),
              Nat.mod_lt _ (Nat.succ_pos _)⟩))).2) := by
  rw [pltiLoop, if_pos hctrlt]

theorem map_mk_name_oset (ctr : Nat) (ll : List USlot) :
    ((ll.map (fun u => (⟨u.name, u.oset, ctr⟩ : TSlot))).map
      (fun t => (t.name, t.oset)))
      = ll.map (fun u => (u.name, u.oset)) := by
  rw [List.map_map]
  rfl

theorem pltiLoop_spec (pick : Nat → Nat) (n : Nat) :
    ∀ (fuel : Nat) (untyped : List USlot) (round ctr : Nat) (typed : List TSlot),
    untyped.length < fuel →
    ctr + untyped.length ≤ n →
    ∃ l, pltiLoop pick n fuel round untyped ctr typed = .ok l ∧
      List.Perm (l.map (fun t => (t.name, t.oset)))
        (typed.map (fun t => (t.name, t.oset)) ++
          untyped.map (fun u => (u.name, u.oset))) ∧
      ∀ t ∈ l, t ∈ typed ∨ (ctr ≤ t.tid ∧ t.tid < n) := by
  intro fuel
  induction fuel with
  | zero =>
    intro untyped round ctr typed hfuel
    exact absurd hfuel (Nat.not_lt_zero _)
  | succ fuel ih =>
    intro untyped round ctr typed hfuel hctr
    cases untyped with
    | nil =>
      refine ⟨typed, rfl, by simp, fun t ht => Or.inl ht⟩
    | cons u0 us =>
      have hctrlt : ctr < n := by
        simp only [List.length_cons] at hctr
        omega
      rw [pltiLoop_cons pick n fuel round ctr typed u0 us hctrlt]
      set c := (u0 :: us).get ⟨pick round % (us.length + 1),
        Nat.mod_lt _ (Nat.succ_pos _)⟩ with hcdef
      have hcmem : c ∈ u0 :: us := by
        rw [hcdef]
        exact List.get_mem _ _ _
      clear_value c
      clear hcdef
      have hsw := sweep_eq c ctr ((u0 :: us).erase c) [] (by intro x hx; cases hx)
      simp only [List.nil_append] at hsw
      rw [hsw]
      have hperm_ce : List.Perm (u0 :: us) (c :: (u0 :: us).erase c) :=
        List.perm_cons_erase hcmem
      have herase_len : ((u0 :: us).erase c).length = us.length := by
        rw [List.length_erase_of_mem hcmem]
        rfl
      generalize hu1 : (u0 :: us).erase c = u1 at hperm_ce herase_len ⊢
      have hflen : (u1.filter (fun u => !decide (c.oset ∩ u.oset).Nonempty)).length
          ≤ us.length := by
        rw [← herase_len]
        exact List.length_filter_le _ _
      have hfuel2 : (u1.filter (fun u => !decide (c.oset ∩ u.oset).Nonempty)).length
          < fuel :=
        Nat.lt_of_le_of_lt hflen (Nat.lt_of_succ_lt_succ hfuel)
      have hctr2 : (ctr + 1) + (u1.filter
          (fun u => !decide (c.oset ∩ u.oset).Nonempty)).length ≤ n := by
        simp only [List.length_cons] at hctr
        omega
      obtain ⟨l, hl, hperm, htid⟩ := ih
        (u1.filter (fun u => !decide (c.oset ∩ u.oset).Nonempty))
        (round + 1) (ctr + 1)
        (typed ++ (⟨c.name, c.oset, ctr⟩ : TSlot) ::
          ((u1.filter (fun u => decide (c.oset ∩ u.oset).Nonempty)).map
            (fun u => ⟨u.name, u.oset, ctr⟩)))
        hfuel2 hctr2
      refine ⟨l, hl, ?_, ?_⟩
      · refine hperm.trans ?_
        rw [List.map_append, List.map_cons, map_mk_name_oset, List.append_assoc]
        have hfp : List.Perm
            ((u1.filter (fun u => decide (c.oset ∩ u.oset).Nonempty)).map
              (fun u => (u.name, u.oset)) ++
             (u1.filter (fun u => !decide (c.oset ∩ u.oset).Nonempty)).map
              (fun u => (u.name, u.oset)))
            (u1.map (fun u => (u.name, u.oset))) := by
          rw [← List.map_append]
          exact List.Perm.map _ (List.filter_append_perm _ _)
        have hce : List.Perm ((u0 :: us).map (fun u => (u.name, u.oset)))
            ((c.name, c.oset) :: u1.map (fun u => (u.name, u.oset))) :=
          List.Perm.map _ hperm_ce
        exact List.Perm.append_left _ ((List.Perm.cons _ hfp).trans hce.symm)
      · intro t ht
        rcases htid t ht with hty | hrange
        · rcases List.mem_append.mp hty with h1 | h1
          · exact Or.inl h1
          · rcases List.mem_cons.mp h1 with h2 | h2
            · exact Or.inr (by rw [h2]; exact ⟨Nat.le_refl _, hctrlt⟩)
            · obtain ⟨u, _, hu⟩ := List.mem_map.mp h2
              exact Or.inr (by rw [← hu]; exact ⟨Nat.le_refl _, hctrlt⟩)
        · exact Or.inr ⟨Nat.le_of_succ_le hrange.1, hrange.2⟩

/-! ### Claim theorems -/

/-- Claim C1, evaluated at a failing input: the three slots carry the sets
A = {1}, B = {1, 2}, C = {2}, so A and B intersect, B and C intersect,
and A and C are disjoint; the claim requires all three to receive the
same type id.  When the random choice always picks the first remaining
slot, the code gives A and B type 0 but C type 1: the single sweep
against the anchor A never compares C with the newly added B, so the
transitive link is missed and the output is not the connected-component
partition. -/
theorem claim_c1_single_pass :
    (({1} : Finset Nat) ∩ {1, 2}).Nonempty ∧
    (({1, 2} : Finset Nat) ∩ {2}).Nonempty ∧
    (({1} : Finset Nat) ∩ {2}) = ∅ ∧
    PredicateLogicTypeInference (fun _ => 0) [(0, [{1}]), (1, [{1, 2}]), (2, [{2}])]
      = .ok [⟨(0, 0), {1}, 0⟩, ⟨(1, 0), {1, 2}, 0⟩, ⟨(2, 0), {2}, 1⟩] := by
  refine ⟨by decide, by decide, by decide, by decide⟩

/-- Claim C2, evaluated at a failing input: on the same slot dictionary,
picking the first remaining slot each round yields the partition
with slot (2,0) in its own cluster, while picking the second slot first
yields one single cluster holding all three slots.  The partition
therefore depends on the processing order, contradicting the claimed
order-invariance. -/
theorem claim_c2_order_dependent :
    PredicateLogicTypeInference (fun _ => 0) [(0, [{1}]), (1, [{1, 2}]), (2, [{2}])]
      = .ok [⟨(0, 0), {1}, 0⟩, ⟨(1, 0), {1, 2}, 0⟩, ⟨(2, 0), {2}, 1⟩] ∧
    PredicateLogicTypeInference (fun _ => 1) [(0, [{1}]), (1, [{1, 2}]), (2, [{2}])]
      = .ok [⟨(1, 0), {1, 2}, 0⟩, ⟨(0, 0), {1}, 0⟩, ⟨(2, 0), {2}, 0⟩] := by
  constructor
  · decide
  · decide

/-- Claim C3 counterexample: the two atoms share the head p but have
arities 2 and 1; the claim says the position-set builder must fail on
such a mismatch, yet `compress_to_sets` succeeds, silently folding the
shorter atom into the first position set. -/
theorem claim_c3_counterexample :
    ((['p'], [['a'], ['b']]) : PAtom).1 = ((['p'], [['c']]) : PAtom).1 ∧
    ((['p'], [['a'], ['b']]) : PAtom).2.length ≠ ((['p'], [['c']]) : PAtom).2.length ∧
    compress_to_sets [(['p'], [['a'], ['b']]), (['p'], [['c']])] [] []
      = .ok [(0, [{0, 2}, {1}])] := by
  refine ⟨rfl, by decide, by decide⟩

/-- Claim C3 (amended): the position-set builder succeeds exactly when no
pooled atom has MORE arguments than the first pooled atom with the same
head code; an atom with fewer arguments than the established arity is
accepted silently, and only an excess argument position raises the
out-of-range indexing fault. -/
theorem claim_c3_amended (pos neg fac : List PAtom) :
    (∃ d, compress_to_sets pos neg fac = .ok d) ↔
      ∀ a ∈ pos ++ neg ++ fac, ∀ b,
        firstWithCode (sort_keys pos neg fac).1 (pos ++ neg ++ fac)
          ((sort_keys pos neg fac).1 a.1) = some b →
        a.2.length ≤ b.2.length := by
  have h := compressList_ok_iff (sort_keys pos neg fac).1 (sort_keys pos neg fac).2
    (pos ++ neg ++ fac) [] [] (estInv_nil _)
  simpa [compress_to_sets] using h

/-- Claim C3 amended witness: the smaller-arity pool from the
counterexample satisfies the no-excess condition, so the builder
succeeds on it. -/
theorem claim_c3_witness :
    ∃ d, compress_to_sets [(['p'], [['a'], ['b']]), (['p'], [['c']])] [] [] = .ok d :=
  (claim_c3_amended [(['p'], [['a'], ['b']]), (['p'], [['c']])] [] []).mpr (by decide)

/-- Claim C4: when all pooled atoms sharing a head agree on arity,
`compress_to_sets` succeeds and returns a dictionary with one entry per
observed head code; the entry of code k has exactly as many sets as the
arity of the atoms with that code, and the set at position p holds
exactly the constant codes observed at argument position p of the pooled
atoms with head code k. -/
theorem claim_c4_position_sets (pos neg fac : List PAtom)
    (hcons : ∀ a ∈ pos ++ neg ++ fac, ∀ b ∈ pos ++ neg ++ fac,
      a.1 = b.1 → a.2.length = b.2.length) :
    ∃ d, compress_to_sets pos neg fac = .ok d ∧
      (∀ a ∈ pos ++ neg ++ fac, ∃ sets,
        ((sort_keys pos neg fac).1 a.1, sets) ∈ d) ∧
      (∀ k sets, (k, sets) ∈ d →
        (∃ a ∈ pos ++ neg ++ fac, (sort_keys pos neg fac).1 a.1 = k) ∧
        (∀ a ∈ pos ++ neg ++ fac, (sort_keys pos neg fac).1 a.1 = k →
          sets.length = a.2.length) ∧
        (∀ p, p < sets.length → ∀ c : Nat,
          c ∈ sets.getD p ∅ ↔
            ∃ a ∈ pos ++ neg ++ fac, (sort_keys pos neg fac).1 a.1 = k ∧
              p < a.2.length ∧ (sort_keys pos neg fac).2 (a.2.getD p []) = c)) := by
  have hrinj : ∀ a ∈ pos ++ neg ++ fac, ∀ b ∈ pos ++ neg ++ fac,
      (sort_keys pos neg fac).1 a.1 = (sort_keys pos neg fac).1 b.1 → a.1 = b.1 := by
    intro a ha b hb he
    exact rankOf_inj _ a.1 b.1 (List.mem_map.mpr ⟨a, ha, rfl⟩)
      (List.mem_map.mpr ⟨b, hb, rfl⟩) he
  have hcode : ∀ a ∈ pos ++ neg ++ fac, ∀ b ∈ pos ++ neg ++ fac,
      (sort_keys pos neg fac).1 a.1 = (sort_keys pos neg fac).1 b.1 →
      a.2.length = b.2.length :=
    fun a ha b hb he => hcons a ha b hb (hrinj a ha b hb he)
  have hinv0 : dictInv (sort_keys pos neg fac).1 (sort_keys pos neg fac).2 [] [] := by
    refine ⟨List.nodup_nil, ?_, ?_⟩
    · intro k
      simp [dictLookup]
    · intro k sets hl
      cases hl
  obtain ⟨d, hd, hinv⟩ := compressList_inv (sort_keys pos neg fac).1
    (sort_keys pos neg fac).2 (pos ++ neg ++ fac) [] [] hinv0 (by simpa using hcode)
  refine ⟨d, hd, ?_, ?_⟩
  · intro a ha
    have hsome := (hinv.2.1 ((sort_keys pos neg fac).1 a.1)).mpr
      ⟨a, by simpa using ha, rfl⟩
    obtain ⟨sets, hsets⟩ := Option.isSome_iff_exists.mp hsome
    exact ⟨sets, dictLookup_mem _ _ _ hsets⟩
  · intro k sets hmem
    have hl : dictLookup k d = some sets := mem_dictLookup k sets d hinv.1 hmem
    obtain ⟨hlen, hchar⟩ := hinv.2.2 k sets hl
    refine ⟨?_, ?_, ?_⟩
    · obtain ⟨x, hx, hxk⟩ := (hinv.2.1 k).mp (by rw [hl]; rfl)
      exact ⟨x, by simpa using hx, hxk⟩
    · intro a ha hk
      exact hlen a (by simpa using ha) hk
    · intro p hp c
      rw [hchar p hp c]
      unfold slotSpec
      constructor
      · rintro ⟨a, ha, h1, h2, h3⟩
        exact ⟨a, by simpa using ha, h1, h2, h3⟩
      · rintro ⟨a, ha, h1, h2, h3⟩
        exact ⟨a, by simpa using ha, h1, h2, h3⟩

/-- Claim C4 witness: a concrete arity-consistent pool, with the
hypothesis discharged by computation. -/
theorem claim_c4_witness :
    (∀ a ∈ ([(['p'], [['a'], ['b']]), (['q'], [['b']])] : List PAtom) ++ [] ++ [],
      ∀ b ∈ ([(['p'], [['a'], ['b']]), (['q'], [['b']])] : List PAtom) ++ [] ++ [],
      a.1 = b.1 → a.2.length = b.2.length) ∧
    (∃ d, compress_to_sets [(['p'], [['a'], ['b']]), (['q'], [['b']])] [] [] = .ok d ∧
      (∀ a ∈ ([(['p'], [['a'], ['b']]), (['q'], [['b']])] : List PAtom) ++ [] ++ [],
        ∃ sets, ((sort_keys [(['p'], [['a'], ['b']]), (['q'], [['b']])] [] []).1 a.1,
          sets) ∈ d) ∧
      (∀ k sets, (k, sets) ∈ d →
        (∃ a ∈ ([(['p'], [['a'], ['b']]), (['q'], [['b']])] : List PAtom) ++ [] ++ [],
          (sort_keys [(['p'], [['a'], ['b']]), (['q'], [['b']])] [] []).1 a.1 = k) ∧
        (∀ a ∈ ([(['p'], [['a'], ['b']]), (['q'], [['b']])] : List PAtom) ++ [] ++ [],
          (sort_keys [(['p'], [['a'], ['b']]), (['q'], [['b']])] [] []).1 a.1 = k →
          sets.length = a.2.length) ∧
        (∀ p, p < sets.length → ∀ c : Nat,
          c ∈ sets.getD p ∅ ↔
            ∃ a ∈ ([(['p'], [['a'], ['b']]), (['q'], [['b']])] : List PAtom) ++ [] ++ [],
              (sort_keys [(['p'], [['a'], ['b']]), (['q'], [['b']])] [] []).1 a.1 = k ∧
              p < a.2.length ∧
              (sort_keys [(['p'], [['a'], ['b']]), (['q'], [['b']])] [] []).2
                (a.2.getD p []) = c))) :=
  ⟨by decide, claim_c4_position_sets [(['p'], [['a'], ['b']]), (['q'], [['b']])] [] []
    (by decide)⟩

/-- Claim C5: in each rank category of `sort_keys` (head symbols, and
constants), a strictly more frequent symbol receives a strictly smaller
code, some most-frequent symbol receives code 0, and the rank map is
injective on the symbols of its category. -/
theorem claim_c5_rank_properties (pos neg fac : List PAtom) :
    ((∀ a b, a ∈ (pos ++ neg ++ fac).map Prod.fst →
      b ∈ (pos ++ neg ++ fac).map Prod.fst →
      countOf ((pos ++ neg ++ fac).map Prod.fst) b
        < countOf ((pos ++ neg ++ fac).map Prod.fst) a →
      (sort_keys pos neg fac).1 a < (sort_keys pos neg fac).1 b) ∧
    ((pos ++ neg ++ fac).map Prod.fst ≠ [] →
      ∃ m, m ∈ (pos ++ neg ++ fac).map Prod.fst ∧ (sort_keys pos neg fac).1 m = 0 ∧
        ∀ b ∈ (pos ++ neg ++ fac).map Prod.fst,
          countOf ((pos ++ neg ++ fac).map Prod.fst) b
            ≤ countOf ((pos ++ neg ++ fac).map Prod.fst) m) ∧
    (∀ a b, a ∈ (pos ++ neg ++ fac).map Prod.fst →
      b ∈ (pos ++ neg ++ fac).map Prod.fst →
      (sort_keys pos neg fac).1 a = (sort_keys pos neg fac).1 b → a = b)) ∧
    ((∀ a b, a ∈ (pos ++ neg ++ fac).flatMap Prod.snd →
      b ∈ (pos ++ neg ++ fac).flatMap Prod.snd →
      countOf ((pos ++ neg ++ fac).flatMap Prod.snd) b
        < countOf ((pos ++ neg ++ fac).flatMap Prod.snd) a →
      (sort_keys pos neg fac).2 a < (sort_keys pos neg fac).2 b) ∧
    ((pos ++ neg ++ fac).flatMap Prod.snd ≠ [] →
      ∃ m, m ∈ (pos ++ neg ++ fac).flatMap Prod.snd ∧
        (sort_keys pos neg fac).2 m = 0 ∧
        ∀ b ∈ (pos ++ neg ++ fac).flatMap Prod.snd,
          countOf ((pos ++ neg ++ fac).flatMap Prod.snd) b
            ≤ countOf ((pos ++ neg ++ fac).flatMap Prod.snd) m) ∧
    (∀ a b, a ∈ (pos ++ neg ++ fac).flatMap Prod.snd →
      b ∈ (pos ++ neg ++ fac).flatMap Prod.snd →
      (sort_keys pos neg fac).2 a = (sort_keys pos neg fac).2 b → a = b)) := by
  refine ⟨⟨?_, ?_, ?_⟩, ⟨?_, ?_, ?_⟩⟩
  · intro a b ha hb hc
    exact rankOf_strict _ a b ha hb hc
  · intro hne
    exact rankOf_zero_max _ hne
  · intro a b ha hb he
    exact rankOf_inj _ a b ha hb he
  · intro a b ha hb hc
    exact rankOf_strict _ a b ha hb hc
  · intro hne
    exact rankOf_zero_max _ hne
  · intro a b ha hb he
    exact rankOf_inj _ a b ha hb he

/-- Claim C5 witness: with heads p, p, q the symbol p is strictly more
frequent than q and receives the strictly smaller code. -/
theorem claim_c5_witness :
    (sort_keys [(['p'], [['a']]), (['p'], [['b']]), (['q'], [['a']])] [] []).1 ['p']
      < (sort_keys [(['p'], [['a']]), (['p'], [['b']]), (['q'], [['a']])] [] []).1 ['q'] :=
  (claim_c5_rank_properties [(['p'], [['a']]), (['p'], [['b']]), (['q'], [['a']])]
    [] []).1.1 ['p'] ['q'] (by decide) (by decide) (by decide)

/-- Claim C6 counterexample: the text f(a).x does not match the anchored
ground-atom grammar (it neither ends in a period nor is a bare atom),
yet `parse` accepts it because the regular expression is applied with an
unanchored substring search. -/
theorem claim_c6_counterexample :
    specGrammarMatch ['f', '(', 'a', ')', '.', 'x'] = false ∧
    parse ['f', '(', 'a', ')', '.', 'x'] = .ok ⟨['f'], [['a']], []⟩ := by
  constructor
  · decide
  · decide

/-- Claim C6 (amended): parse raises a SyntaxFault EXACTLY when no
substring of the input matches the atom regular expression; in
particular every input with no opening parenthesis, and every input in
which no closing parenthesis is immediately followed by a period, fails
with a SyntaxFault.  Whole-string conformance to the grammar is however
not required, since a matching substring suffices. -/
theorem claim_c6_amended (s : List Char) :
    (parse s = .error .syntaxFault ↔ regexSearch s = false) ∧
    (('(' ∉ s ∨ hasCloseDot s = false) → parse s = .error .syntaxFault) := by
  have hmain : regexSearch s = false → parse s = .error .syntaxFault := by
    intro h
    unfold parse
    rw [if_neg (by simp [h])]
  refine ⟨⟨?_, hmain⟩, fun h => hmain (regexSearch_false_cond s h)⟩
  intro hp
  cases hreg : regexSearch s with
  | false => rfl
  | true =>
    exfalso
    unfold parse at hp
    rw [if_pos hreg] at hp
    cases hsp : splitChar '(' ((stripSpaces s).takeWhile (fun c => c ≠ ')')) with
    | nil =>
      rw [hsp] at hp
      simp at hp
    | cons p0 t =>
      cases t with
      | nil =>
        rw [hsp] at hp
        simp at hp
      | cons p1 rest =>
        rw [hsp] at hp
        simp at hp

/-- Claim C6 amended witness: friends). (no opening parenthesis) fails
via the particular families, and f(a;b). - which has both an opening
parenthesis and a closing-parenthesis-period pair but no matching
substring, the semicolon being outside the pattern alphabet - fails via
the general no-matching-substring direction. -/
theorem claim_c6_witness :
    parse ['f', 'r', ')', '.'] = .error .syntaxFault ∧
    parse ['f', '(', 'a', ';', 'b', ')', '.'] = .error .syntaxFault :=
  ⟨(claim_c6_amended ['f', 'r', ')', '.']).2 (by decide),
   (claim_c6_amended ['f', '(', 'a', ';', 'b', ')', '.']).1.mpr (by decide)⟩

/-- Claim C7: for every well-formed atom text, built from a nonempty
alphanumeric head and a nonempty list of nonempty alphanumeric
arguments, `parse` succeeds and returns exactly that head and that
argument list in textual order; in particular the returned argument
count equals the number of comma-separated tokens in the parentheses. -/
theorem claim_c7_parse_wellformed (h : List Char) (args : List (List Char))
    (hh : tokenOk h) (hne : args ≠ []) (ha : ∀ a ∈ args, tokenOk a) :
    parse (atomText h args) = .ok ⟨h, args, []⟩ ∧
    ∀ g : GAtom, parse (atomText h args) = .ok g → g.args.length = args.length := by
  have hp : parse (atomText h args) = .ok ⟨h, args, []⟩ :=
    parse_atomTextSp h args [] hh.2 hne (fun a hx => (ha a hx).2)
  refine ⟨hp, ?_⟩
  intro g hg
  rw [hp] at hg
  injection hg with hg
  rw [← hg]

/-- Claim C7 witness: parsing f(a,b). returns head f and arguments a, b. -/
theorem claim_c7_witness :
    parse (atomText ['f'] [['a'], ['b']]) = .ok ⟨['f'], [['a'], ['b']], []⟩ :=
  (claim_c7_parse_wellformed ['f'] [['a'], ['b']] (by decide) (by decide) (by decide)).1

/-- Claim C8 counterexample: f(a,b). parses, but inserting a space
immediately BEFORE the comma gives f(a ,b). which raises a SyntaxFault:
the regular expression only tolerates spaces after commas, so the claim
that spaces may be inserted immediately before or after any comma is
false. -/
theorem claim_c8_counterexample :
    parse ['f', '(', 'a', ',', 'b', ')', '.'] = .ok ⟨['f'], [['a'], ['b']], []⟩ ∧
    parse ['f', '(', 'a', ' ', ',', 'b', ')', '.'] = .error .syntaxFault := by
  constructor
  · decide
  · decide

/-- Claim C8 (amended): inserting any number of spaces immediately AFTER
any comma of a well-formed atom still parses successfully and yields the
same atom as the space-free text. -/
theorem claim_c8_amended (h : List Char) (args : List (List Char)) (sps : List Nat)
    (hh : tokenOk h) (hne : args ≠ []) (ha : ∀ a ∈ args, tokenOk a) :
    parse (atomTextSp h args sps) = parse (atomText h args) ∧
    parse (atomTextSp h args sps) = .ok ⟨h, args, []⟩ := by
  have h1 := parse_atomTextSp h args sps hh.2 hne (fun a hx => (ha a hx).2)
  have h2 : parse (atomText h args) = .ok ⟨h, args, []⟩ :=
    parse_atomTextSp h args [] hh.2 hne (fun a hx => (ha a hx).2)
  exact ⟨h1.trans h2.symm, h1⟩

/-- Claim C8 amended witness: two spaces after the comma of f(a,b). parse
to the same atom. -/
theorem claim_c8_witness :
    parse (atomTextSp ['f'] [['a'], ['b']] [2]) = parse (atomText ['f'] [['a'], ['b']]) ∧
    parse (atomTextSp ['f'] [['a'], ['b']] [2]) = .ok ⟨['f'], [['a'], ['b']], []⟩ :=
  claim_c8_amended ['f'] [['a'], ['b']] [2] (by decide) (by decide) (by decide)

/-- Claim C9: for every input dictionary and every possible sequence of
random choices, PredicateLogicTypeInference returns normally (neither
the Types counter nor the loop can be exhausted), the returned list
carries each input slot exactly once (as a permutation of the flattened
slots), and every assigned type id is an integer below the total slot
count. -/
theorem claim_c9_terminates (pick : Nat → Nat) (d : SetDict) :
    ∃ l, PredicateLogicTypeInference pick d = .ok l ∧
      List.Perm (l.map (fun t => (t.name, t.oset)))
        ((buildUntyped d).map (fun u => (u.name, u.oset))) ∧
      ∀ t ∈ l, t.tid < (buildUntyped d).length := by
  obtain ⟨l, hl, hperm, htid⟩ := pltiLoop_spec pick (buildUntyped d).length
    ((buildUntyped d).length + 1) (buildUntyped d) 0 0 []
    (Nat.lt_succ_self _) (by simp)
  refine ⟨l, hl, by simpa using hperm, ?_⟩
  intro t ht
  rcases htid t ht with h1 | h1
  · cases h1
  · exact h1.2

/-- Claim C9 witness: the conclusion instantiated at a concrete
dictionary and pick sequence. -/
theorem claim_c9_witness :
    ∃ l, PredicateLogicTypeInference (fun _ => 0) [(0, [{1}, {2}]), (3, [{2}])] = .ok l ∧
      List.Perm (l.map (fun t => (t.name, t.oset)))
        ((buildUntyped [(0, [{1}, {2}]), (3, [{2}])]).map (fun u => (u.name, u.oset))) ∧
      ∀ t ∈ l, t.tid < (buildUntyped [(0, [{1}, {2}]), (3, [{2}])]).length :=
  claim_c9_terminates (fun _ => 0) [(0, [{1}, {2}]), (3, [{2}])]

/-- Claim C10 counterexample: on the input ).f(a). a substring does match
the atom regular expression, but `parse` does not succeed: the text
before the first closing parenthesis contains no opening parenthesis, so
the split yields a single segment and indexing it raises the IndexError
fault rather than returning an atom — refuting the claimed equivalence
of success with a substring match. -/
theorem claim_c10_counterexample :
    regexSearch [')', '.', 'f', '(', 'a', ')', '.'] = true ∧
    parse [')', '.', 'f', '(', 'a', ')', '.'] = .error .indexFault := by
  constructor
  · decide
  · decide

/-- Claim C10 (amended): parse succeeds iff some substring matches the
atom regular expression AND the space-stripped input has an opening
parenthesis before its first closing parenthesis; on success the head is
the prefix of the space-stripped input before its first opening
parenthesis (so junk before a valid atom is absorbed into the head), and
the arguments are the segment after the first opening parenthesis,
truncated at the first closing parenthesis or at a second opening
parenthesis, split on commas. -/
theorem claim_c10_amended (s : List Char) :
    ((∃ a, parse s = .ok a) ↔
      (regexSearch s = true ∧ '(' ∈ (stripSpaces s).takeWhile (fun c => c ≠ ')'))) ∧
    (∀ a, parse s = .ok a →
      a.head = (stripSpaces s).takeWhile (fun c => c ≠ '(') ∧
      a.args = splitChar ','
        ((((stripSpaces s).dropWhile (fun c => c ≠ '(')).tail).takeWhile
          (fun c => ¬(c = '(' ∨ c = ')')))) :=
  parse_ok_cases s

/-- Claim C10 amended witness: the junk prefix of xy f(a). is absorbed
into the returned head xyf. -/
theorem claim_c10_witness :
    parse ['x', 'y', ' ', 'f', '(', 'a', ')', '.'] = .ok ⟨['x', 'y', 'f'], [['a']], []⟩ ∧
    (⟨['x', 'y', 'f'], [['a']], []⟩ : GAtom).head
      = (stripSpaces ['x', 'y', ' ', 'f', '(', 'a', ')', '.']).takeWhile
          (fun c => c ≠ '(') :=
  ⟨by decide,
   ((claim_c10_amended ['x', 'y', ' ', 'f', '(', 'a', ')', '.']).2
     ⟨['x', 'y', 'f'], [['a']], []⟩ (by decide)).1⟩

end InferModes
